import Mathlib

/-!
Verification of the adaptive multi-pass markdown chunking engine
(`MarkdownChunker` in `src/chunker.py`).

Shallow embedding conventions:
* Text is modelled as `List Char` (`Str`); `str` converts a Lean string
  literal into this representation.
* Python's whitespace class (as used by `str.split()`, `str.strip()` and
  the regex class) is modelled for the ASCII range: space, tab, newline,
  carriage return, vertical tab, form feed.
* `int(word_count * 1.3)` is modelled as `word_count * 13 / 10` (natural
  floor division); for every realistic word count the double-precision
  product `word_count * 1.3` truncates to exactly this value.
* `section_tokens > self.max_tokens * 0.8` is modelled as
  `4 * max_tokens < 5 * section_tokens`; for every `|max_tokens| < 2^50`
  the rounded double `max_tokens * 0.8` compares identically.
* Python `dict` metadata only ever holds the keys `heading`, `section`
  and `chunking_method`, so it is modelled as a record of three optional
  fields, a missing key being `none`.
* The regular expressions of the source are tiny and are translated into
  explicit character-level functions, documented case by case.
-/

abbrev Str := List Char

/-- Conversion from Lean string literals to the character-list model. -/
def str (s : String) : Str := s.data

/-- Python whitespace (ASCII range): the class used by `str.split()`,
`str.strip()` and the regex class in the source's patterns. -/
def isWS (c : Char) : Bool :=
  c == ' ' || c == '\t' || c == '\n' || c == '\r' ||
  c == Char.ofNat 11 || c == Char.ofNat 12

/-- `str.strip()`: drop leading and trailing whitespace. -/
def stripWS (s : Str) : Str :=
  ((s.dropWhile isWS).reverse.dropWhile isWS).reverse

/-- `text.split()` with no argument: maximal runs of non-whitespace. -/
def wordsAux (cur : Str) : Str → List Str
  | [] => if cur.isEmpty then [] else [cur.reverse]
  | c :: cs =>
    if isWS c then
      if cur.isEmpty then wordsAux [] cs else cur.reverse :: wordsAux [] cs
    else wordsAux (c :: cur) cs

def words (s : Str) : List Str := wordsAux [] s

/-- `MarkdownChunker._estimate_tokens`: `int(len(text.split()) * 1.3)`. -/
def estimateTokens (s : Str) : Nat := (words s).length * 13 / 10

/-- `text.split("\n")`, keeping empty pieces. -/
def linesAux (cur : Str) : Str → List Str
  | [] => [cur.reverse]
  | c :: cs => if c == '\n' then cur.reverse :: linesAux [] cs else linesAux (c :: cur) cs

def linesOf (s : Str) : List Str := linesAux [] s

/-- Pair each line with whether a `'\n'` follows it in the original text
(true for all but the last line). -/
def tagLines : List Str → List (Str × Bool)
  | [] => []
  | [l] => [(l, false)]
  | l :: ls => (l, true) :: tagLines ls

/-- Group a list into contiguous runs, starting a new run at every element
satisfying `p`.  The first run collects the elements before the first
flagged one and may be empty (mirroring the possibly-empty first piece of
a zero-width `re.split`). -/
def groupsByAux (p : β → Bool) (cur : List β) : List β → List (List β)
  | [] => [cur.reverse]
  | x :: xs => if p x then cur.reverse :: groupsByAux p [x] xs else groupsByAux p (x :: cur) xs

def groupsBy (p : β → Bool) (l : List β) : List (List β) := groupsByAux p [] l

/-- Shared skeleton of the three zero-width `re.split` based splitters:
split the text into lines, start a new section at every line flagged by
`startsNew` (which also sees whether the line is followed by a newline),
and rejoin each group of lines.  The newline that separated two sections
is dropped; every call site strips the sections immediately, so this is
faithful to the source, whose pieces carry that newline as leading or
trailing whitespace. -/
def rawSections (startsNew : Str → Bool → Bool) (text : Str) : List Str :=
  (groupsBy (fun p : Str × Bool => startsNew p.1 p.2) (tagLines (linesOf text))).map
    (fun g => List.intercalate ['\n'] (g.map Prod.fst))

def leadingHashes (l : Str) : Nat := (l.takeWhile (fun c => c == '#')).length

/-- Start-of-line match of `#{lo,6}\s+` (with `re.MULTILINE`): between
`lo` and 6 leading `#` characters followed by a whitespace character,
which may be the newline terminating the line. -/
def isHeaderStartTagged (lo : Nat) (l : Str) (hasNext : Bool) : Bool :=
  let h := leadingHashes l
  decide (lo ≤ h) && decide (h ≤ 6) &&
    (match l.drop h with
     | [] => hasNext
     | c :: _ => isWS c)

/-- `MarkdownChunker._has_markdown_subheaders`:
`re.search(r"^#{2,6}\s+", text, re.MULTILINE)`. -/
def hasMarkdownSubheaders (text : Str) : Bool :=
  (tagLines (linesOf text)).any (fun p => isHeaderStartTagged 2 p.1 p.2)

/-- A full line matching `\*\*.{6,}\*\*` (the `$`-anchored standalone bold
heading pattern): at least 10 characters, starting and ending with
`**`. -/
def isBoldLine (l : Str) : Bool :=
  decide (10 ≤ l.length) && l.take 2 == ['*', '*'] && l.reverse.take 2 == ['*', '*']

/-- `MarkdownChunker._has_bold_headings`: count the lines matching the
standalone bold-heading pattern and compare with `min_splits`. -/
def hasBoldHeadings (text : Str) (minSplits : Nat) : Bool :=
  decide (minSplits ≤ ((linesOf text).filter isBoldLine).length)

/-- Emulation of `re.match(r"^(#{1,6})\s+(.+)$", section, re.MULTILINE)`:
returns the header level and the stripped heading text on success.  The
greedy `\s+` may span newlines, after which `(.+)` captures the rest of
that line.  When everything after the hashes is whitespace the engine
backtracks; it still matches iff some whitespace character after the
first one is not a newline, capturing only whitespace (stripped to an
empty heading). -/
def headerMatch (sec : Str) : Option (Nat × Str) :=
  let h := leadingHashes sec
  if 1 ≤ h ∧ h ≤ 6 then
    match sec.drop h with
    | [] => none
    | c :: tail0 =>
      if isWS c then
        match (c :: tail0).dropWhile isWS with
        | [] => if tail0.any (fun d => !(d == '\n')) then some (h, []) else none
        | r :: rs => some (h, stripWS ((r :: rs).takeWhile (fun d => !(d == '\n'))))
      else none
  else none

/-- `f"h{level}"` for levels 1–6. -/
def levelTag (lvl : Nat) : Str := 'h' :: Nat.toDigits 10 lvl

structure Metadata where
  heading : Option Str
  sectionTag : Option Str
  chunkingMethod : Option Str
deriving DecidableEq, Inhabited

def emptyMeta : Metadata := ⟨none, none, none⟩

/-- `MarkdownChunker._extract_header_info`. -/
def extractHeaderInfo (sec : Str) : Metadata :=
  match headerMatch sec with
  | some (lvl, heading) => ⟨some heading, some (levelTag lvl), some (str "markdown_headers")⟩
  | none => emptyMeta

/-- `MarkdownChunker._split_by_headers`: split at lines starting a
`#{1,6}\s+` header, strip each piece, drop empty pieces, attach header
metadata; if nothing remains, the whole input with empty metadata. -/
def splitByHeaders (text : Str) : List (Str × Metadata) :=
  let result :=
    ((((rawSections (isHeaderStartTagged 1) text).map stripWS).filter
        (fun s => !s.isEmpty)).map (fun s => (s, extractHeaderInfo s)))
  if result.isEmpty then [(text, emptyMeta)] else result

/-- `str.replace("**", "")`: remove the occurrences of `**` left to
right, non-overlapping. -/
def removeDoubleStars : Str → Str
  | '*' :: '*' :: rest => removeDoubleStars rest
  | c :: rest => c :: removeDoubleStars rest
  | [] => []

/-- A full first line matching `\*\*.+\*\*` (the `re.match` pattern of
`_extract_bold_heading_info`): at least 5 characters, starting and ending
with `**`. -/
def isBoldFirstLine (l : Str) : Bool :=
  decide (5 ≤ l.length) && l.take 2 == ['*', '*'] && l.reverse.take 2 == ['*', '*']

/-- `MarkdownChunker._extract_bold_heading_info`. -/
def extractBoldHeadingInfo (sec : Str) : Metadata :=
  let l := sec.takeWhile (fun c => !(c == '\n'))
  if isBoldFirstLine l then
    ⟨some (stripWS (removeDoubleStars l)), some (str "bold"), some (str "bold_headings")⟩
  else
    match headerMatch sec with
    | some (lvl, heading) => ⟨some heading, some (levelTag lvl), some (str "bold_headings")⟩
    | none => ⟨none, none, some (str "bold_headings")⟩

/-- `MarkdownChunker._split_by_bold_headings`. -/
def splitByBoldHeadings (text : Str) : List (Str × Metadata) :=
  let result :=
    ((((rawSections (fun l _ => isBoldLine l) text).map stripWS).filter
        (fun s => !s.isEmpty)).map (fun s => (s, extractBoldHeadingInfo s)))
  if result.isEmpty then [(text, ⟨none, none, some (str "paragraph_split")⟩)] else result

/-- Line start matching one of the structural-marker lookaheads
`\n[-*]\s+`, `\n\d+\.\s+`, `\n[-*]{3,}\n` (checked at the newline
preceding the line, so only lines after the first can be flagged; the
grouping skeleton puts a flagged first line in a section of its own
preceded by an empty, dropped piece, which yields the same sections). -/
def isStructMarkerLine (l : Str) (hasNext : Bool) : Bool :=
  (match l with
   | c :: rest =>
     (c == '-' || c == '*') && (match rest with | [] => hasNext | d :: _ => isWS d)
   | [] => false)
  ||
  (let ds := l.takeWhile Char.isDigit
   decide (0 < ds.length) &&
     (match l.drop ds.length with
      | '.' :: rest2 => (match rest2 with | [] => hasNext | d :: _ => isWS d)
      | _ => false))
  ||
  (decide (3 ≤ l.length) && l.all (fun c => c == '-' || c == '*') && hasNext)

/-- `MarkdownChunker._split_by_structural_markers`. -/
def splitByStructuralMarkers (text : Str) : List (Str × Metadata) :=
  let result :=
    ((((rawSections isStructMarkerLine text).map stripWS).filter
        (fun s => !s.isEmpty)).map
      (fun s =>
        (s, (⟨some ((s.takeWhile (fun c => !(c == '\n'))).take 100),
              some (str "structural"), some (str "structural_markers")⟩ : Metadata))))
  if result.isEmpty then [(text, ⟨none, none, some (str "paragraph_split")⟩)] else result

/-- `text.split("\n\n")`: leftmost, non-overlapping. -/
def splitDoubleNlAux (cur : Str) : Str → List Str
  | '\n' :: '\n' :: rest => cur.reverse :: splitDoubleNlAux [] rest
  | c :: rest => splitDoubleNlAux (c :: cur) rest
  | [] => [cur.reverse]

def splitDoubleNl (s : Str) : List Str := splitDoubleNlAux [] s

def isSentEnd (c : Char) : Bool := c == '.' || c == '!' || c == '?'

/-- `re.split(r"(?<=[.!?])\s+", text)`: break after a sentence-ending
character followed by whitespace, consuming the whole greedy whitespace
run.  One structural left-to-right pass; `skipping` records that the
scanner is inside the whitespace run consumed by a match (`cur` is then
empty), and otherwise `cur` holds the current piece reversed, its head
being the previously read character (the lookbehind). -/
def splitSentsAux (skipping : Bool) (cur : Str) : Str → List Str
  | [] => [cur.reverse]
  | c :: cs =>
    if skipping then
      if isWS c then splitSentsAux true [] cs
      else splitSentsAux false [c] cs
    else
      if isWS c && (match cur with | p :: _ => isSentEnd p | [] => false) then
        cur.reverse :: splitSentsAux true [] cs
      else splitSentsAux false (c :: cur) cs

def splitSents (s : Str) : List Str := splitSentsAux false [] s

structure Chunker where
  maxTokens : Int
  overlapTokens : Int
  increasedOverlap : Int
deriving DecidableEq

/-- `MarkdownChunker.__init__`: stores the two budgets unchanged (with no
validation of any kind) and derives `increased_overlap`. -/
def mkChunker (maxTokens overlapTokens : Int) : Chunker :=
  ⟨maxTokens, overlapTokens, overlapTokens * 2⟩

/-- The loop body of `MarkdownChunker._get_overlap_text`: walk the
sentences from the end (here: a reversed sentence list), accumulating
whole sentences while the running estimate stays within `target`. -/
def overlapAux (target : Int) : List Str → Nat → Str → Str
  | [], _, ov => ov
  | s :: rest, tokens, ov =>
    let st := estimateTokens s
    if target < (tokens : Int) + st then ov
    else overlapAux target rest (tokens + st) (s ++ (if ov.isEmpty then [] else [' ']) ++ ov)

/-- `MarkdownChunker._get_overlap_text`. -/
def getOverlapText (text : Str) (target : Int) : Str :=
  if text.isEmpty || target ≤ 0 then []
  else stripWS (overlapAux target (splitSents text).reverse 0 [])

/-- A chunk under assembly inside `_split_by_paragraphs`: the source
keeps the accumulated units as a list and joins them on flush
(`"\n\n".join(current_chunk)` for paragraphs, `" ".join(sentence_chunk)`
for sentences). -/
inductive Packed where
  | paras (units : List Str)
  | sents (units : List Str)
deriving DecidableEq, Inhabited

def renderPacked : Packed → Str
  | .paras us => List.intercalate ('\n' :: '\n' :: []) us
  | .sents us => List.intercalate [' '] us

/-- The inner sentence loop of `_split_by_paragraphs`, for a paragraph
whose own estimate exceeds the budget. -/
def packSentencesAux (mx : Int) (done : List (List Str)) (cur : List Str) (curTok : Nat) :
    List Str → List (List Str)
  | [] => if cur.isEmpty then done else done ++ [cur]
  | s :: ss =>
    let st := estimateTokens s
    if mx < (curTok : Int) + st then
      packSentencesAux mx (if cur.isEmpty then done else done ++ [cur]) [s] st ss
    else packSentencesAux mx done (cur ++ [s]) (curTok + st) ss

def packSentences (mx : Int) (sentences : List Str) : List (List Str) :=
  packSentencesAux mx [] [] 0 sentences

/-- The paragraph loop of `_split_by_paragraphs`, producing the packed
chunks before joining and before any overlap is added. -/
def packParasAux (mx : Int) (done : List Packed) (cur : List Str) (curTok : Nat) :
    List Str → List Packed
  | [] => if cur.isEmpty then done else done ++ [.paras cur]
  | p :: ps =>
    let pt := estimateTokens p
    if mx < (pt : Int) then
      packParasAux mx
        ((if cur.isEmpty then done else done ++ [.paras cur]) ++
          (packSentences mx (splitSents p)).map .sents)
        [] 0 ps
    else if mx < (curTok : Int) + pt then
      packParasAux mx (if cur.isEmpty then done else done ++ [.paras cur]) [p] pt ps
    else packParasAux mx done (cur ++ [p]) (curTok + pt) ps

def packParas (mx : Int) (paragraphs : List Str) : List Packed :=
  packParasAux mx [] [] 0 paragraphs

/-- The overlap loop at the end of `_split_by_paragraphs`: every chunk
except the first is rewritten to the overlap window of the immediately
preceding original chunk, a blank line, and its own text. -/
def addOverlapsAux (ovl : Int) (prev : Str) : List (Str × Metadata) → List (Str × Metadata)
  | [] => []
  | c :: cs => (getOverlapText prev ovl ++ '\n' :: '\n' :: c.1, c.2) :: addOverlapsAux ovl c.1 cs

def addOverlaps (ovl : Int) : List (Str × Metadata) → List (Str × Metadata)
  | [] => []
  | c :: cs => c :: addOverlapsAux ovl c.1 cs

/-- `MarkdownChunker._split_by_paragraphs`. -/
def splitByParagraphs (c : Chunker) (text : Str) (metadata : Metadata)
    (useIncreasedOverlap : Bool) : List (Str × Metadata) :=
  let overlap := if useIncreasedOverlap then c.increasedOverlap else c.overlapTokens
  let chunks := (packParas c.maxTokens (splitDoubleNl text)).map
    (fun p => (renderPacked p, metadata))
  if useIncreasedOverlap && decide (1 < chunks.length) then addOverlaps overlap chunks
  else chunks

def withMethod (m : Metadata) (v : Str) : Metadata := { m with chunkingMethod := some v }

/-- The per-subsection finalization loop shared by the three adaptive
passes: skip whitespace-only subsections, keep subsections within budget,
pack the rest by paragraphs (without increased overlap). -/
def finalizeSections (c : Chunker) (secs : List (Str × Metadata)) : List (Str × Metadata) :=
  secs.flatMap (fun q =>
    if (stripWS q.1).isEmpty then []
    else if decide ((estimateTokens q.1 : Int) ≤ c.maxTokens) then [q]
    else splitByParagraphs c q.1 q.2 false)

/-- Passes 3 and 4 of `MarkdownChunker._split_large_section_adaptive`. -/
def adaptivePass3 (c : Chunker) (text : Str) (metadata : Metadata) : List (Str × Metadata) :=
  let sections := splitByStructuralMarkers text
  if decide (2 ≤ sections.length) then finalizeSections c sections
  else splitByParagraphs c text (withMethod metadata (str "paragraph_split")) true

/-- `MarkdownChunker._split_large_section_adaptive`. -/
def splitLargeSectionAdaptive (c : Chunker) (text : Str) (metadata : Metadata) :
    List (Str × Metadata) :=
  if hasMarkdownSubheaders text then finalizeSections c (splitByHeaders text)
  else if hasBoldHeadings text 2 then
    let sections := splitByBoldHeadings text
    if decide (2 ≤ sections.length) then finalizeSections c sections
    else adaptivePass3 c text metadata
  else adaptivePass3 c text metadata

structure Chunk where
  content : Str
  metadata : Metadata
deriving DecidableEq, Inhabited

/-- The escalation trigger computed per top-level section in
`MarkdownChunker.chunk`. -/
def needsAdaptiveSplitting (c : Chunker) (sec : Str) : Bool :=
  let t : Int := estimateTokens sec
  decide (c.maxTokens < t) ||
  (decide (4 * c.maxTokens < 5 * t) && hasMarkdownSubheaders sec) ||
  (decide (4 * c.maxTokens < 5 * t) && hasBoldHeadings sec 2)

/-- `MarkdownChunker.chunk`. -/
def chunkFn (c : Chunker) (markdownText : Str) : List Chunk :=
  (splitByHeaders markdownText).flatMap (fun p =>
    if needsAdaptiveSplitting c p.1 then
      (splitLargeSectionAdaptive c p.1 p.2).map (fun q => ⟨q.1, q.2⟩)
    else [⟨p.1, p.2⟩])

/-- State-passing reading of a `chunk` method call: the body of
`MarkdownChunker.chunk` (and everything it calls) only reads
`self.max_tokens`, `self.overlap_tokens` and `self.increased_overlap`
and never assigns any attribute, so the post-call engine is the pre-call
engine. -/
def chunkCall (c : Chunker) (text : Str) : List Chunk × Chunker :=
  (chunkFn c text, c)

/-- Verification-side predicate: the text contains no sentence boundary
of the packer's sentence splitter (no sentence-ending character directly
followed by whitespace), i.e. it is a single sentence in the sense of
`splitSents`. -/
def noSentBreak : Str → Bool
  | c :: d :: rest => if isSentEnd c && isWS d then false else noSentBreak (d :: rest)
  | _ => true

/-- The units a packed chunk was assembled from (the source's
`current_chunk` / `sentence_chunk` lists at flush time). -/
def packedUnits : Packed → List Str
  | .paras us => us
  | .sents us => us

/-! ## Word-sequence lemmas

`words` (the no-argument `str.split()`) is the measuring stick of the
whole engine: the token estimator counts words, and the coverage claims
are about the sequence of non-whitespace spans.  The lemmas below show
how `words` distributes over the whitespace-separated joins used by the
splitters and the packer. -/

theorem words_nil : words [] = [] := rfl

theorem wordsAux_ws (cur : Str) (c : Char) (b : Str) (hc : isWS c = true) :
    wordsAux cur (c :: b) = (if cur.isEmpty then [] else [cur.reverse]) ++ wordsAux [] b := by
  cases cur <;> simp [wordsAux, hc]

theorem wordsAux_nonws (cur : Str) (c : Char) (b : Str) (hc : isWS c = false) :
    wordsAux cur (c :: b) = wordsAux (c :: cur) b := by
  simp [wordsAux, hc]

theorem wordsAux_nil_flush (cur : Str) :
    wordsAux cur [] = if cur.isEmpty then [] else [cur.reverse] := by
  cases cur <;> simp [wordsAux]

theorem words_drop_front_ws (w s : Str) (hw : ∀ c ∈ w, isWS c = true) :
    words (w ++ s) = words s := by
  induction w with
  | nil => rfl
  | cons c cs ih =>
    have hc : isWS c = true := hw c (by simp)
    calc words ((c :: cs) ++ s) = wordsAux [] (c :: (cs ++ s)) := rfl
      _ = wordsAux [] (cs ++ s) := by rw [wordsAux_ws [] c (cs ++ s) hc]; simp
      _ = words s := ih (fun d hd => hw d (by simp [hd]))

theorem wordsAux_append_ws (c : Char) (hc : isWS c = true) (b : Str) :
    ∀ (a cur : Str), wordsAux cur (a ++ c :: b) = wordsAux cur (a ++ [c]) ++ wordsAux [] b := by
  intro a
  induction a with
  | nil =>
    intro cur
    rw [List.nil_append, List.nil_append, wordsAux_ws cur c b hc, wordsAux_ws cur c [] hc]
    simp [wordsAux]
  | cons x xs ih =>
    intro cur
    rcases Bool.eq_false_or_eq_true (isWS x) with hx | hx
    · rw [List.cons_append, List.cons_append, wordsAux_ws cur x _ hx, wordsAux_ws cur x _ hx,
        ih []]
      simp [List.append_assoc]
    · rw [List.cons_append, List.cons_append, wordsAux_nonws cur x _ hx,
        wordsAux_nonws cur x _ hx]
      exact ih (x :: cur)

theorem wordsAux_trailing_ws (c : Char) (hc : isWS c = true) :
    ∀ (a cur : Str), wordsAux cur (a ++ [c]) = wordsAux cur a := by
  intro a
  induction a with
  | nil =>
    intro cur
    rw [List.nil_append, wordsAux_ws cur c [] hc, wordsAux_nil_flush cur]
    simp [wordsAux]
  | cons x xs ih =>
    intro cur
    rcases Bool.eq_false_or_eq_true (isWS x) with hx | hx
    · simp only [List.cons_append]
      rw [wordsAux_ws cur x _ hx, wordsAux_ws cur x _ hx, ih []]
    · simp only [List.cons_append]
      rw [wordsAux_nonws cur x _ hx, wordsAux_nonws cur x _ hx]
      exact ih (x :: cur)

theorem words_append_sep (a sep b : Str) (hne : sep ≠ [])
    (hws : ∀ c ∈ sep, isWS c = true) :
    words (a ++ sep ++ b) = words a ++ words b := by
  match sep, hne with
  | c :: sep1, _ =>
    have hc : isWS c = true := hws c (by simp)
    have h1 : words (a ++ c :: (sep1 ++ b)) = words (a ++ [c]) ++ words (sep1 ++ b) :=
      wordsAux_append_ws c hc (sep1 ++ b) a []
    have h2 : words (a ++ [c]) = words a := wordsAux_trailing_ws c hc a []
    have h3 : words (sep1 ++ b) = words b :=
      words_drop_front_ws sep1 b (fun d hd => hws d (by simp [hd]))
    calc words (a ++ (c :: sep1) ++ b) = words (a ++ c :: (sep1 ++ b)) := by
          simp [List.append_assoc]
      _ = words a ++ words b := by rw [h1, h2, h3]

theorem intercalate_nil (sep : Str) : List.intercalate sep ([] : List Str) = [] := by
  simp [List.intercalate]

theorem intercalate_single (sep : Str) (p : Str) : List.intercalate sep [p] = p := by
  simp [List.intercalate]

theorem intercalate_cons_cons (sep p q : Str) (qs : List Str) :
    List.intercalate sep (p :: q :: qs) = p ++ sep ++ List.intercalate sep (q :: qs) := by
  simp [List.intercalate, List.intersperse_cons_cons, List.append_assoc]

theorem words_intercalate (sep : Str) (hne : sep ≠ [])
    (hws : ∀ c ∈ sep, isWS c = true) :
    ∀ ps : List Str, words (List.intercalate sep ps) = (ps.map words).flatten := by
  intro ps
  induction ps with
  | nil => simp [intercalate_nil, words_nil]
  | cons p ps ih =>
    cases ps with
    | nil => simp [intercalate_single]
    | cons q qs =>
      rw [intercalate_cons_cons, words_append_sep _ _ _ hne hws, ih]
      simp

theorem words_append_trailing_ws (a w : Str) (hw : ∀ c ∈ w, isWS c = true) :
    words (a ++ w) = words a := by
  induction w generalizing a with
  | nil => simp
  | cons c cs ih =>
    have hc : isWS c = true := hw c (by simp)
    have h : a ++ c :: cs = (a ++ [c]) ++ cs := by simp
    rw [h, ih (a ++ [c]) (fun d hd => hw d (by simp [hd]))]
    exact wordsAux_trailing_ws c hc a []

theorem words_stripWS (s : Str) : words (stripWS s) = words s := by
  unfold stripWS
  have h1 : s.takeWhile isWS ++ s.dropWhile isWS = s := List.takeWhile_append_dropWhile isWS s
  have hws1 : ∀ c ∈ s.takeWhile isWS, isWS c = true := fun c hc => List.mem_takeWhile_imp hc
  set t := s.dropWhile isWS with ht
  have h2 : t.reverse.takeWhile isWS ++ t.reverse.dropWhile isWS = t.reverse :=
    List.takeWhile_append_dropWhile isWS t.reverse
  have h3 : (t.reverse.dropWhile isWS).reverse ++ (t.reverse.takeWhile isWS).reverse = t := by
    rw [← List.reverse_append, h2, List.reverse_reverse]
  have hws2 : ∀ c ∈ (t.reverse.takeWhile isWS).reverse, isWS c = true := by
    intro c hc
    exact List.mem_takeWhile_imp (List.mem_reverse.mp hc)
  calc words ((t.reverse.dropWhile isWS).reverse)
      = words ((t.reverse.dropWhile isWS).reverse ++ (t.reverse.takeWhile isWS).reverse) :=
        (words_append_trailing_ws _ _ hws2).symm
    _ = words t := by rw [h3]
    _ = words (s.takeWhile isWS ++ t) := (words_drop_front_ws _ _ hws1).symm
    _ = words s := by rw [ht, h1]

theorem wordsAux_ne_nil (s1 : Str) : ∀ cur : Str, cur ≠ [] → wordsAux cur s1 ≠ [] := by
  induction s1 with
  | nil =>
    intro cur hcur
    rw [wordsAux_nil_flush]
    simp [hcur]
  | cons d ds ih =>
    intro cur hcur
    rcases Bool.eq_false_or_eq_true (isWS d) with hd | hd
    · rw [wordsAux_ws cur d ds hd]
      simp [hcur]
    · rw [wordsAux_nonws cur d ds hd]
      exact ih (d :: cur) (by simp)

theorem words_nil_iff (s : Str) : words s = [] ↔ ∀ c ∈ s, isWS c = true := by
  induction s with
  | nil => simp [words_nil]
  | cons c cs ih =>
    rcases Bool.eq_false_or_eq_true (isWS c) with hc | hc
    · have hh : words (c :: cs) = words cs := by
        show wordsAux [] (c :: cs) = words cs
        rw [wordsAux_ws [] c cs hc]
        simp [words]
      rw [hh, ih]
      constructor
      · intro h d hd
        rcases List.mem_cons.mp hd with rfl | hd2
        · exact hc
        · exact h d hd2
      · intro h d hd
        exact h d (by simp [hd])
    · constructor
      · intro h
        exfalso
        have hh : words (c :: cs) = wordsAux [c] cs := wordsAux_nonws [] c cs hc
        rw [hh] at h
        exact wordsAux_ne_nil cs [c] (by simp) h
      · intro h
        exact absurd (h c (by simp)) (by simp [hc])

theorem stripWS_nil_iff (s : Str) : stripWS s = [] ↔ ∀ c ∈ s, isWS c = true := by
  constructor
  · intro h c hc
    by_contra hnc
    have hd : s.dropWhile isWS ≠ [] := by
      intro hnil
      rw [List.dropWhile_eq_nil_iff] at hnil
      exact hnc (hnil c hc)
    unfold stripWS at h
    have h2 : (s.dropWhile isWS).reverse.dropWhile isWS = [] := by
      have := congrArg List.reverse h
      simpa using this
    rw [List.dropWhile_eq_nil_iff] at h2
    have hdr : (s.dropWhile isWS).reverse ≠ [] := by simpa using hd
    have hL : ((s.dropWhile isWS).reverse).getLast hdr ∈ (s.dropWhile isWS).reverse :=
      List.getLast_mem hdr
    have hhead : ((s.dropWhile isWS).reverse).getLast hdr = (s.dropWhile isWS).head hd := by
      rw [List.getLast_reverse]
    have hws : isWS ((s.dropWhile isWS).head hd) = true := by
      rw [← hhead]
      exact h2 _ hL
    have := List.head_dropWhile_not isWS s hd
    rw [this] at hws
    exact Bool.false_ne_true hws
  · intro h
    unfold stripWS
    have h2 : s.dropWhile isWS = [] := List.dropWhile_eq_nil_iff.mpr h
    simp [h2]

theorem words_eq_nil_of_stripWS (s : Str) (h : stripWS s = []) : words s = [] :=
  (words_nil_iff s).mpr ((stripWS_nil_iff s).mp h)

/-! ## Splitter skeleton lemmas

Each zero-width `re.split` based splitter partitions the input's lines
into contiguous groups: rejoining all groups gives back the input, so
the word sequence is preserved exactly. -/

theorem linesAux_ne_nil (s : Str) (cur : Str) : linesAux cur s ≠ [] := by
  induction s generalizing cur with
  | nil => simp [linesAux]
  | cons c cs ih =>
    by_cases hc : c = '\n' <;> simp [linesAux, hc, ih]

theorem linesAux_intercalate (s : Str) : ∀ cur : Str,
    List.intercalate ['\n'] (linesAux cur s) = cur.reverse ++ s := by
  induction s with
  | nil => intro cur; simp [linesAux, intercalate_single]
  | cons c cs ih =>
    intro cur
    by_cases hc : c = '\n'
    · subst hc
      have h1 : linesAux cur ('\n' :: cs) = cur.reverse :: linesAux [] cs := by
        simp [linesAux]
      rw [h1]
      match hm : linesAux [] cs, linesAux_ne_nil cs [] with
      | q :: qs, _ =>
        rw [intercalate_cons_cons]
        have := ih []
        rw [hm] at this
        rw [this]
        simp
    · have h1 : linesAux cur (c :: cs) = linesAux (c :: cur) cs := by
        simp [linesAux, hc]
      rw [h1, ih (c :: cur)]
      simp

theorem linesOf_intercalate (s : Str) : List.intercalate ['\n'] (linesOf s) = s := by
  simpa using linesAux_intercalate s []

theorem tagLines_map_fst : ∀ ls : List Str, (tagLines ls).map Prod.fst = ls
  | [] => rfl
  | [_] => rfl
  | l :: l2 :: ls => by
    have := tagLines_map_fst (l2 :: ls)
    simp only [tagLines]
    simpa using this

theorem groupsByAux_flatten (p : β → Bool) (l : List β) : ∀ cur : List β,
    (groupsByAux p cur l).flatten = cur.reverse ++ l := by
  induction l with
  | nil => intro cur; simp [groupsByAux]
  | cons x xs ih =>
    intro cur
    by_cases hx : p x
    · simp only [groupsByAux, hx, if_pos]
      simp [ih [x]]
    · simp only [groupsByAux, hx, if_neg, Bool.false_eq_true, not_false_iff]
      rw [ih (x :: cur)]
      simp

theorem groupsBy_flatten (p : β → Bool) (l : List β) : (groupsBy p l).flatten = l := by
  simpa using groupsByAux_flatten p l []

theorem flatten_map_flatten (M : List (List (List α))) :
    (M.map List.flatten).flatten = M.flatten.flatten := by
  induction M with
  | nil => rfl
  | cons g gs ih => simp [List.flatten_append, ih]

theorem newline_ws : ∀ c ∈ (['\n'] : Str), isWS c = true := by
  intro c hc
  simp at hc
  subst hc
  rfl

theorem rawSections_words (P : Str → Bool → Bool) (t : Str) :
    (((rawSections P t).map words).flatten) = words t := by
  unfold rawSections
  set groups := groupsBy (fun p : Str × Bool => P p.1 p.2) (tagLines (linesOf t)) with hg
  have h1 : ∀ g : List (Str × Bool),
      words (List.intercalate ['\n'] (g.map Prod.fst)) =
        ((g.map Prod.fst).map words).flatten :=
    fun g => words_intercalate ['\n'] (by simp) newline_ws _
  have h2 : (groups.map (fun g => words (List.intercalate ['\n'] (g.map Prod.fst)))) =
      groups.map (fun g => ((g.map Prod.fst).map words).flatten) :=
    List.map_congr_left (fun g _ => h1 g)
  rw [List.map_map]
  show (groups.map (words ∘ fun g => List.intercalate ['\n'] (g.map Prod.fst))).flatten = words t
  have h3 : (groups.map (words ∘ fun g => List.intercalate ['\n'] (g.map Prod.fst))) =
      groups.map (fun g => ((g.map (fun q : Str × Bool => words q.1))).flatten) := by
    refine List.map_congr_left (fun g _ => ?_)
    simp only [Function.comp]
    rw [h1 g, List.map_map]
    rfl
  rw [h3]
  have h4 : groups.map (fun g => ((g.map (fun q : Str × Bool => words q.1))).flatten) =
      (groups.map (fun g => g.map (fun q : Str × Bool => words q.1))).map List.flatten := by
    simp [List.map_map]
  rw [h4, flatten_map_flatten]
  have h5 : (groups.map (fun g => g.map (fun q : Str × Bool => words q.1))).flatten =
      groups.flatten.map (fun q : Str × Bool => words q.1) := by
    rw [List.map_flatten]
  rw [h5, hg, groupsBy_flatten]
  have h6 : (tagLines (linesOf t)).map (fun q : Str × Bool => words q.1) =
      (linesOf t).map words := by
    have := tagLines_map_fst (linesOf t)
    calc (tagLines (linesOf t)).map (fun q : Str × Bool => words q.1)
        = ((tagLines (linesOf t)).map Prod.fst).map words := by simp [List.map_map]
      _ = (linesOf t).map words := by rw [this]
  rw [h6, ← words_intercalate ['\n'] (by simp) newline_ws (linesOf t), linesOf_intercalate]

theorem stripFilter_words (L : List Str) :
    ((((L.map stripWS).filter (fun s => !s.isEmpty)).map words).flatten) =
      ((L.map words).flatten) := by
  induction L with
  | nil => rfl
  | cons s ss ih =>
    by_cases hs : (stripWS s).isEmpty
    · have hnil : words s = [] := by
        refine words_eq_nil_of_stripWS s ?_
        simpa [List.isEmpty_iff] using hs
      simp only [List.map_cons, List.filter_cons, hs]
      simp only [Bool.not_true, Bool.false_eq_true, if_false]
      rw [ih]
      simp [hnil]
    · have hc : (!(stripWS s).isEmpty) = true := by simpa using hs
      simp [List.filter_cons, hc, words_stripWS, ih]

theorem sectionsShape_words (raw : List Str) (M : Str → Metadata) (t : Str) (m0 : Metadata)
    (hraw : ((raw.map words).flatten) = words t) :
    (((if (((raw.map stripWS).filter (fun s => !s.isEmpty)).map
            (fun s => (s, M s))).isEmpty
        then [(t, m0)]
        else ((raw.map stripWS).filter (fun s => !s.isEmpty)).map
            (fun s => (s, M s))).map (fun q : Str × Metadata => words q.1)).flatten) = words t := by
  by_cases he : (((raw.map stripWS).filter (fun s => !s.isEmpty)).map
      (fun s => (s, M s))).isEmpty
  · simp [he]
  · simp only [he, Bool.false_eq_true, if_false]
    have h1 : ((((raw.map stripWS).filter (fun s => !s.isEmpty)).map
        (fun s => (s, M s))).map (fun q : Str × Metadata => words q.1)) =
        (((raw.map stripWS).filter (fun s => !s.isEmpty)).map words) := by
      rw [List.map_map]
      rfl
    rw [h1, stripFilter_words, hraw]

theorem splitByHeaders_words (t : Str) :
    (((splitByHeaders t).map (fun q : Str × Metadata => words q.1)).flatten) = words t := by
  have h := sectionsShape_words (rawSections (isHeaderStartTagged 1) t) extractHeaderInfo t
    emptyMeta (rawSections_words _ t)
  simpa [splitByHeaders] using h

theorem splitByBoldHeadings_words (t : Str) :
    (((splitByBoldHeadings t).map (fun q : Str × Metadata => words q.1)).flatten) = words t := by
  have h := sectionsShape_words (rawSections (fun l _ => isBoldLine l) t) extractBoldHeadingInfo
    t ⟨none, none, some (str "paragraph_split")⟩ (rawSections_words _ t)
  simpa [splitByBoldHeadings] using h

theorem splitByStructuralMarkers_words (t : Str) :
    (((splitByStructuralMarkers t).map (fun q : Str × Metadata => words q.1)).flatten) =
      words t := by
  have h := sectionsShape_words (rawSections isStructMarkerLine t)
    (fun s => (⟨some ((s.takeWhile (fun c => !(c == '\n'))).take 100),
      some (str "structural"), some (str "structural_markers")⟩ : Metadata))
    t ⟨none, none, some (str "paragraph_split")⟩ (rawSections_words _ t)
  simpa [splitByStructuralMarkers] using h

/-! ## Sentence split and packer preserve the word sequence -/

theorem splitSentsAux_words (s : Str) :
    (∀ cur : Str,
      ((splitSentsAux false cur s).map words).flatten = words (cur.reverse ++ s)) ∧
    (((splitSentsAux true [] s).map words).flatten = words s) := by
  induction s with
  | nil =>
    constructor
    · intro cur
      simp [splitSentsAux]
    · simp [splitSentsAux, words_nil]
  | cons c cs ih =>
    obtain ⟨ihF, ihT⟩ := ih
    constructor
    · intro cur
      by_cases hb : (isWS c && (match cur with | p :: _ => isSentEnd p | [] => false)) = true
      · have hc : isWS c = true := by
          have hb2 := hb
          simp only [Bool.and_eq_true] at hb2
          exact hb2.1
        have hstep : splitSentsAux false cur (c :: cs) =
            cur.reverse :: splitSentsAux true [] cs := by
          simp [splitSentsAux, hb]
        rw [hstep]
        simp only [List.map_cons, List.flatten_cons, ihT]
        rw [← words_append_sep cur.reverse [c] cs (by simp)
          (by intro d hd; simp at hd; subst hd; exact hc)]
        simp
      · have hstep : splitSentsAux false cur (c :: cs) = splitSentsAux false (c :: cur) cs := by
          simp only [splitSentsAux, Bool.false_eq_true, if_false]
          rw [if_neg hb]
        rw [hstep]
        have := ihF (c :: cur)
        simpa using this
    · by_cases hc : isWS c
      · have hstep : splitSentsAux true [] (c :: cs) = splitSentsAux true [] cs := by
          simp [splitSentsAux, hc]
        rw [hstep, ihT]
        have : words (c :: cs) = words ([c] ++ cs) := by simp
        rw [this, words_drop_front_ws [c] cs (by intro d hd; simp at hd; subst hd; simpa using hc)]
      · have hstep : splitSentsAux true [] (c :: cs) = splitSentsAux false [c] cs := by
          simp [splitSentsAux, hc]
        rw [hstep]
        simpa using ihF [c]

theorem splitSents_words (s : Str) : (((splitSents s).map words).flatten) = words s := by
  simpa [splitSents] using (splitSentsAux_words s).1 []

theorem flatten_groups_map (g : α → List β) (groups : List (List α)) :
    (groups.map (fun gl => (gl.map g).flatten)).flatten = (groups.flatten.map g).flatten := by
  rw [List.map_flatten]
  have h : groups.map (fun gl => (gl.map g).flatten) =
      (groups.map (fun gl => gl.map g)).map List.flatten := by
    simp [List.map_map]
  rw [h, flatten_map_flatten]

theorem packSentencesAux_flatten (mx : Int) : ∀ (ss : List Str) (done : List (List Str))
    (cur : List Str) (curTok : Nat),
    (packSentencesAux mx done cur curTok ss).flatten = done.flatten ++ cur ++ ss := by
  intro ss
  induction ss with
  | nil =>
    intro done cur curTok
    by_cases hc : cur.isEmpty
    · have : cur = [] := by simpa [List.isEmpty_iff] using hc
      subst this
      simp [packSentencesAux]
    · simp [packSentencesAux, hc, List.flatten_append]
  | cons s ss ih =>
    intro done cur curTok
    by_cases hover : mx < (curTok : Int) + estimateTokens s
    · have hstep : packSentencesAux mx done cur curTok (s :: ss) =
          packSentencesAux mx (if cur.isEmpty then done else done ++ [cur]) [s]
            (estimateTokens s) ss := by
        simp [packSentencesAux, hover]
      rw [hstep, ih]
      by_cases hc : cur.isEmpty
      · have : cur = [] := by simpa [List.isEmpty_iff] using hc
        subst this
        simp
      · simp [hc, List.flatten_append]
    · have hstep : packSentencesAux mx done cur curTok (s :: ss) =
          packSentencesAux mx done (cur ++ [s]) (curTok + estimateTokens s) ss := by
        simp [packSentencesAux, hover]
      rw [hstep, ih]
      simp
  
theorem packSentences_flatten (mx : Int) (ss : List Str) :
    (packSentences mx ss).flatten = ss := by
  simpa [packSentences] using packSentencesAux_flatten mx ss [] [] 0

theorem words_renderPacked_paras (us : List Str) :
    words (renderPacked (.paras us)) = (us.map words).flatten := by
  exact words_intercalate ('\n' :: '\n' :: []) (by simp)
    (by intro d hd; simp at hd; subst hd; rfl) us

theorem words_renderPacked_sents (us : List Str) :
    words (renderPacked (.sents us)) = (us.map words).flatten := by
  exact words_intercalate [' '] (by simp) (by intro d hd; simp at hd; subst hd; rfl) us

theorem packParasAux_words (mx : Int) : ∀ (ps : List Str) (done : List Packed)
    (cur : List Str) (curTok : Nat),
    ((packParasAux mx done cur curTok ps).map (fun pk => words (renderPacked pk))).flatten =
      (done.map (fun pk => words (renderPacked pk))).flatten ++ (cur.map words).flatten ++
        (ps.map words).flatten := by
  intro ps
  induction ps with
  | nil =>
    intro done cur curTok
    by_cases hc : cur.isEmpty
    · have : cur = [] := by simpa [List.isEmpty_iff] using hc
      subst this
      simp [packParasAux]
    · simp [packParasAux, hc, List.flatten_append, words_renderPacked_paras]
  | cons p ps ih =>
    intro done cur curTok
    have hflush : ∀ dn : List Packed, ∀ cr : List Str,
        (((if cr.isEmpty then dn else dn ++ [Packed.paras cr]).map
          (fun pk => words (renderPacked pk))).flatten) =
          (dn.map (fun pk => words (renderPacked pk))).flatten ++ (cr.map words).flatten := by
      intro dn cr
      by_cases hc : cr.isEmpty
      · have : cr = [] := by simpa [List.isEmpty_iff] using hc
        subst this
        simp
      · simp [hc, List.flatten_append, words_renderPacked_paras]
    by_cases hbig : mx < (estimateTokens p : Int)
    · have hstep : packParasAux mx done cur curTok (p :: ps) =
          packParasAux mx
            ((if cur.isEmpty then done else done ++ [.paras cur]) ++
              (packSentences mx (splitSents p)).map .sents) [] 0 ps := by
        simp [packParasAux, hbig]
      rw [hstep, ih]
      simp only [List.map_append, List.flatten_append, hflush]
      have hsent : (((packSentences mx (splitSents p)).map Packed.sents).map
          (fun pk => words (renderPacked pk))).flatten = words p := by
        rw [List.map_map]
        have h1 : ((packSentences mx (splitSents p)).map
            ((fun pk => words (renderPacked pk)) ∘ Packed.sents)) =
            (packSentences mx (splitSents p)).map (fun g => (g.map words).flatten) := by
          refine List.map_congr_left (fun g _ => ?_)
          exact words_renderPacked_sents g
        rw [h1, flatten_groups_map, packSentences_flatten, splitSents_words]
      rw [hsent]
      simp [List.append_assoc]
    · by_cases hover : mx < (curTok : Int) + estimateTokens p
      · have hstep : packParasAux mx done cur curTok (p :: ps) =
            packParasAux mx (if cur.isEmpty then done else done ++ [.paras cur]) [p]
              (estimateTokens p) ps := by
          simp [packParasAux, hbig, hover]
        rw [hstep, ih, hflush]
        simp [List.append_assoc]
      · have hstep : packParasAux mx done cur curTok (p :: ps) =
            packParasAux mx done (cur ++ [p]) (curTok + estimateTokens p) ps := by
          simp [packParasAux, hbig, hover]
        rw [hstep, ih]
        simp [List.append_assoc]

theorem packParas_words (mx : Int) (ps : List Str) :
    ((packParas mx ps).map (fun pk => words (renderPacked pk))).flatten =
      (ps.map words).flatten := by
  simpa [packParas] using packParasAux_words mx ps [] [] 0

theorem splitDoubleNlAux_ne_nil (cur s : Str) : splitDoubleNlAux cur s ≠ [] := by
  induction cur, s using splitDoubleNlAux.induct with
  | case1 cur rest ih => simp [splitDoubleNlAux]
  | case2 cur c rest h ih =>
    rw [splitDoubleNlAux.eq_def]
    split
    · next rest2 heq =>
      injection heq with hc hr
      exact (h rest2 hc hr).elim
    · next c2 rest2 heq =>
      injection heq with hc hr
      subst hc
      subst hr
      exact ih
    · next heq => exact absurd heq (by simp)
  | case3 cur => simp [splitDoubleNlAux]

theorem splitDoubleNlAux_step_ne (cur : Str) (c : Char) (rest : Str)
    (h : ¬(c = '\n' ∧ ∃ r2, rest = '\n' :: r2)) :
    splitDoubleNlAux cur (c :: rest) = splitDoubleNlAux (c :: cur) rest := by
  rw [splitDoubleNlAux.eq_def]
  split
  · next rest2 heq =>
    injection heq with hc hr
    exact (h ⟨hc, rest2, hr⟩).elim
  · next c2 rest2 heq =>
    injection heq with hc hr
    subst hc
    subst hr
    rfl
  · next heq => exact absurd heq (by simp)

theorem splitDoubleNlAux_intercalate (cur s : Str) :
    List.intercalate ('\n' :: '\n' :: []) (splitDoubleNlAux cur s) = cur.reverse ++ s := by
  induction cur, s using splitDoubleNlAux.induct with
  | case1 cur rest ih =>
    have h1 : splitDoubleNlAux cur ('\n' :: '\n' :: rest) =
        cur.reverse :: splitDoubleNlAux [] rest := by
      simp [splitDoubleNlAux]
    rw [h1]
    match hm : splitDoubleNlAux [] rest, splitDoubleNlAux_ne_nil [] rest with
    | q :: qs, _ =>
      rw [intercalate_cons_cons]
      rw [hm] at ih
      rw [ih]
      simp
  | case2 cur c rest h ih =>
    rw [splitDoubleNlAux_step_ne cur c rest (by
      rintro ⟨hc, r2, hr⟩
      exact h r2 hc hr)]
    rw [ih]
    simp
  | case3 cur => simp [splitDoubleNlAux, intercalate_single]

theorem splitDoubleNl_words (t : Str) :
    (((splitDoubleNl t).map words).flatten) = words t := by
  have h := splitDoubleNlAux_intercalate [] t
  simp only [List.reverse_nil, List.nil_append] at h
  rw [← words_intercalate ('\n' :: '\n' :: []) (by simp)
    (by intro d hd; simp at hd; subst hd; rfl) (splitDoubleNl t)]
  rw [show splitDoubleNlAux [] t = splitDoubleNl t from rfl] at h
  rw [h]

/-! ## Word coverage of the packer output and of the whole engine -/

theorem splitByParagraphs_noOv_words (c : Chunker) (t : Str) (m : Metadata) :
    (((splitByParagraphs c t m false).map (fun q : Str × Metadata => words q.1)).flatten) =
      words t := by
  unfold splitByParagraphs
  simp only [Bool.false_and, Bool.false_eq_true, if_false]
  rw [List.map_map]
  have h1 : ((packParas c.maxTokens (splitDoubleNl t)).map
      ((fun q : Str × Metadata => words q.1) ∘ fun p => (renderPacked p, m))) =
      (packParas c.maxTokens (splitDoubleNl t)).map (fun pk => words (renderPacked pk)) := rfl
  rw [h1, packParas_words, splitDoubleNl_words]

theorem addOverlapsAux_words_sublist (ovl : Int) :
    ∀ (L : List (Str × Metadata)) (prev : Str),
      ((L.map (fun q : Str × Metadata => words q.1)).flatten).Sublist
        (((addOverlapsAux ovl prev L).map (fun q : Str × Metadata => words q.1)).flatten) := by
  intro L
  induction L with
  | nil => intro prev; simp [addOverlapsAux]
  | cons q qs ih =>
    intro prev
    simp only [addOverlapsAux, List.map_cons, List.flatten_cons]
    have hw : words (getOverlapText prev ovl ++ '\n' :: '\n' :: q.1) =
        words (getOverlapText prev ovl) ++ words q.1 := by
      have := words_append_sep (getOverlapText prev ovl) ('\n' :: '\n' :: []) q.1 (by simp)
        (by intro d hd; simp at hd; subst hd; rfl)
      simpa [List.append_assoc] using this
    rw [hw]
    have h2 := ih q.1
    have h3 : (words q.1 ++
        ((qs.map (fun q : Str × Metadata => words q.1)).flatten)).Sublist
        (words q.1 ++
          (((addOverlapsAux ovl q.1 qs).map (fun q : Str × Metadata => words q.1)).flatten)) :=
      List.Sublist.append (List.Sublist.refl _) h2
    have h4 : (words q.1 ++
        (((addOverlapsAux ovl q.1 qs).map (fun q : Str × Metadata => words q.1)).flatten)).Sublist
        (words (getOverlapText prev ovl) ++ (words q.1 ++
          (((addOverlapsAux ovl q.1 qs).map (fun q : Str × Metadata => words q.1)).flatten))) :=
      List.sublist_append_of_sublist_right (List.Sublist.refl _)
    have h5 := h3.trans h4
    simpa [List.append_assoc] using h5

theorem addOverlaps_words_sublist (ovl : Int) (L : List (Str × Metadata)) :
    ((L.map (fun q : Str × Metadata => words q.1)).flatten).Sublist
      (((addOverlaps ovl L).map (fun q : Str × Metadata => words q.1)).flatten) := by
  cases L with
  | nil => simp [addOverlaps]
  | cons q qs =>
    simp only [addOverlaps, List.map_cons, List.flatten_cons]
    exact List.Sublist.append (List.Sublist.refl _) (addOverlapsAux_words_sublist ovl qs q.1)

theorem splitByParagraphs_words_sublist (c : Chunker) (t : Str) (m : Metadata) (inc : Bool) :
    (words t).Sublist
      (((splitByParagraphs c t m inc).map (fun q : Str × Metadata => words q.1)).flatten) := by
  cases inc with
  | false => rw [splitByParagraphs_noOv_words]
  | true =>
    unfold splitByParagraphs
    by_cases hlen : 1 < ((packParas c.maxTokens (splitDoubleNl t)).map
        (fun p => (renderPacked p, m))).length
    · have hd : decide (1 < ((packParas c.maxTokens (splitDoubleNl t)).map
          (fun p => (renderPacked p, m))).length) = true := by simpa using hlen
      simp only [Bool.true_and, hd, if_true]
      have hbase : (((packParas c.maxTokens (splitDoubleNl t)).map
          (fun p => (renderPacked p, m))).map
            (fun q : Str × Metadata => words q.1)).flatten = words t := by
        rw [List.map_map]
        have h1 : ((packParas c.maxTokens (splitDoubleNl t)).map
            ((fun q : Str × Metadata => words q.1) ∘ fun p => (renderPacked p, m))) =
            (packParas c.maxTokens (splitDoubleNl t)).map
              (fun pk => words (renderPacked pk)) := rfl
        rw [h1, packParas_words, splitDoubleNl_words]
      rw [← hbase]
      exact addOverlaps_words_sublist _ _
    · have hd : decide (1 < ((packParas c.maxTokens (splitDoubleNl t)).map
          (fun p => (renderPacked p, m))).length) = false := by simpa using hlen
      simp only [Bool.true_and, hd, Bool.false_eq_true, if_false]
      have hbase : (((packParas c.maxTokens (splitDoubleNl t)).map
          (fun p => (renderPacked p, m))).map
            (fun q : Str × Metadata => words q.1)).flatten = words t := by
        rw [List.map_map]
        have h1 : ((packParas c.maxTokens (splitDoubleNl t)).map
            ((fun q : Str × Metadata => words q.1) ∘ fun p => (renderPacked p, m))) =
            (packParas c.maxTokens (splitDoubleNl t)).map
              (fun pk => words (renderPacked pk)) := rfl
        rw [h1, packParas_words, splitDoubleNl_words]
      rw [hbase]

theorem finalizeSections_words (c : Chunker) (secs : List (Str × Metadata)) :
    (((finalizeSections c secs).map (fun q : Str × Metadata => words q.1)).flatten) =
      ((secs.map (fun q : Str × Metadata => words q.1)).flatten) := by
  induction secs with
  | nil => rfl
  | cons q qs ih =>
    simp only [finalizeSections, List.flatMap_cons, List.map_append, List.flatten_append,
      List.map_cons, List.flatten_cons]
    have hq : (((if (stripWS q.1).isEmpty then []
        else if decide ((estimateTokens q.1 : Int) ≤ c.maxTokens) then [q]
        else splitByParagraphs c q.1 q.2 false).map
          (fun q : Str × Metadata => words q.1)).flatten) = words q.1 := by
      by_cases h1 : (stripWS q.1).isEmpty
      · have : words q.1 = [] :=
          words_eq_nil_of_stripWS q.1 (by simpa [List.isEmpty_iff] using h1)
        simp [h1, this]
      · by_cases h2 : (estimateTokens q.1 : Int) ≤ c.maxTokens
        · simp [h1, h2]
        · have hd2 : decide ((estimateTokens q.1 : Int) ≤ c.maxTokens) = false := by
            simpa using h2
          simp only [h1, Bool.false_eq_true, if_false, hd2]
          exact splitByParagraphs_noOv_words c q.1 q.2
    rw [hq]
    have ih2 : (((qs.flatMap (fun q : Str × Metadata =>
        if (stripWS q.1).isEmpty then []
        else if decide ((estimateTokens q.1 : Int) ≤ c.maxTokens) then [q]
        else splitByParagraphs c q.1 q.2 false)).map
          (fun q : Str × Metadata => words q.1)).flatten) =
        ((qs.map (fun q : Str × Metadata => words q.1)).flatten) := ih
    rw [ih2]

theorem flatten_sublist_of_forall (secs : List α) (f g : α → List β)
    (h : ∀ a ∈ secs, (f a).Sublist (g a)) :
    ((secs.map f).flatten).Sublist ((secs.map g).flatten) := by
  induction secs with
  | nil => simp
  | cons a as ih =>
    simp only [List.map_cons, List.flatten_cons]
    exact List.Sublist.append (h a (by simp))
      (ih (fun b hb => h b (List.mem_cons_of_mem a hb)))

theorem adaptivePass3_words_sublist (c : Chunker) (t : Str) (m : Metadata) :
    (words t).Sublist
      (((adaptivePass3 c t m).map (fun q : Str × Metadata => words q.1)).flatten) := by
  unfold adaptivePass3
  by_cases h : 2 ≤ (splitByStructuralMarkers t).length
  · have hd : decide (2 ≤ (splitByStructuralMarkers t).length) = true := by simpa using h
    simp only [hd, if_true]
    rw [finalizeSections_words, splitByStructuralMarkers_words]
  · have hd : decide (2 ≤ (splitByStructuralMarkers t).length) = false := by simpa using h
    simp only [hd, Bool.false_eq_true, if_false]
    exact splitByParagraphs_words_sublist c t _ true

theorem adaptive_words_sublist (c : Chunker) (t : Str) (m : Metadata) :
    (words t).Sublist
      (((splitLargeSectionAdaptive c t m).map (fun q : Str × Metadata => words q.1)).flatten) := by
  unfold splitLargeSectionAdaptive
  by_cases h1 : hasMarkdownSubheaders t
  · simp only [h1, if_true]
    rw [finalizeSections_words, splitByHeaders_words]
  · simp only [h1, Bool.false_eq_true, if_false]
    by_cases h2 : hasBoldHeadings t 2
    · simp only [h2, if_true]
      by_cases h3 : 2 ≤ (splitByBoldHeadings t).length
      · have hd : decide (2 ≤ (splitByBoldHeadings t).length) = true := by simpa using h3
        simp only [hd, if_true]
        rw [finalizeSections_words, splitByBoldHeadings_words]
      · have hd : decide (2 ≤ (splitByBoldHeadings t).length) = false := by simpa using h3
        simp only [hd, Bool.false_eq_true, if_false]
        exact adaptivePass3_words_sublist c t m
    · simp only [h2, Bool.false_eq_true, if_false]
      exact adaptivePass3_words_sublist c t m

theorem flatMap_map_flatten (L : List α) (g : α → List β) (f : β → List γ) :
    (((L.flatMap g).map f).flatten) = ((L.map (fun a => ((g a).map f).flatten)).flatten) := by
  induction L with
  | nil => rfl
  | cons a as ih =>
    simp only [List.flatMap_cons, List.map_append, List.flatten_append, List.map_cons,
      List.flatten_cons, ih]

theorem chunk_words_sublist (c : Chunker) (t : Str) :
    (words t).Sublist
      (((chunkFn c t).map (fun ch : Chunk => words ch.content)).flatten) := by
  unfold chunkFn
  rw [flatMap_map_flatten]
  rw [← splitByHeaders_words t]
  refine flatten_sublist_of_forall (splitByHeaders t) _ _ ?_
  intro p _
  by_cases hp : needsAdaptiveSplitting c p.1
  · simp only [hp, if_true]
    have h1 : (((splitLargeSectionAdaptive c p.1 p.2).map
        (fun q : Str × Metadata => (⟨q.1, q.2⟩ : Chunk))).map
          (fun ch : Chunk => words ch.content)) =
        ((splitLargeSectionAdaptive c p.1 p.2).map (fun q : Str × Metadata => words q.1)) := by
      rw [List.map_map]
      rfl
    rw [h1]
    exact adaptive_words_sublist c p.1 p.2
  · simp only [hp, Bool.false_eq_true, if_false]
    simp

/-! ## Claim theorems -/

/-- Claim C2: for every input text, the concatenation of the returned
chunks' contents, taken in output order, contains every non-whitespace
span of the input at least once and in the input's original order —
the input's word sequence is a sublist of the word sequence read off the
chunks in order (overlap may duplicate content, nothing is omitted, no
section is reordered). -/
theorem claimC2_coverage_and_order (c : Chunker) (t : Str) :
    (words t).Sublist (((chunkFn c t).map (fun ch : Chunk => words ch.content)).flatten) :=
  chunk_words_sublist c t

/-- Claim C9: for a fixed configuration, two calls of `chunk` on the same
text yield identical output sequences, and each call leaves the engine's
configuration fields (`max_tokens`, `overlap_tokens`,
`increased_overlap`) unchanged: the engine holds no mutable state between
calls.  In the state-passing reading `chunkCall`, the second call (run on
the engine returned by the first) produces the same chunk list, and the
post-call engine is the pre-call engine, field by field. -/
theorem claimC9_deterministic_stateless (c : Chunker) (t : Str) :
    (chunkCall c t).1 = (chunkCall ((chunkCall c t).2) t).1 ∧
      (chunkCall c t).2 = c ∧
      (chunkCall c t).2.maxTokens = c.maxTokens ∧
      (chunkCall c t).2.overlapTokens = c.overlapTokens ∧
      (chunkCall c t).2.increasedOverlap = c.increasedOverlap :=
  ⟨rfl, rfl, rfl, rfl, rfl⟩

/-- Claim C8 (evidence for the code bug): the constructor performs no
validation whatsoever — `MarkdownChunker(max_tokens=0)` succeeds, stores
the non-positive budget unchanged, and a later `chunk` call still runs
and returns without any configuration-error signal, contradicting the
requirement that non-positive `max_tokens` be rejected eagerly at
construction. -/
theorem claimC8_no_construction_validation :
    mkChunker 0 50 = ⟨0, 50, 100⟩ ∧
      chunkFn (mkChunker 0 50) (str "hi") =
        [⟨str "hi", ⟨none, none, some (str "paragraph_split")⟩⟩] := by
  exact ⟨rfl, by decide⟩

theorem splitByHeaders_metadata (t : Str) (p : Str × Metadata) (hp : p ∈ splitByHeaders t) :
    p.2 = extractHeaderInfo p.1 ∨ p.2 = emptyMeta := by
  unfold splitByHeaders at hp
  by_cases he : ((((rawSections (isHeaderStartTagged 1) t).map stripWS).filter
      (fun s => !s.isEmpty)).map (fun s => (s, extractHeaderInfo s))).isEmpty
  · simp only [he, if_true] at hp
    right
    have : p = (t, emptyMeta) := by simpa using hp
    rw [this]
  · simp only [he, Bool.false_eq_true, if_false] at hp
    left
    obtain ⟨s, _, hps⟩ := List.mem_map.mp hp
    rw [← hps]

theorem extractHeaderInfo_shape (s : Str) :
    (extractHeaderInfo s).chunkingMethod = some (str "markdown_headers") ∨
      extractHeaderInfo s = emptyMeta := by
  unfold extractHeaderInfo
  match headerMatch s with
  | some (lvl, heading) => left; rfl
  | none => right; rfl

theorem chunkFn_kept_section_mem (c : Chunker) (t : Str) (p : Str × Metadata)
    (hp : p ∈ splitByHeaders t) (hno : needsAdaptiveSplitting c p.1 = false) :
    (⟨p.1, p.2⟩ : Chunk) ∈ chunkFn c t := by
  unfold chunkFn
  refine List.mem_flatMap.mpr ⟨p, hp, ?_⟩
  simp [hno]

/-- Claim C3, amended: every top-level section that does not meet the
escalation trigger is returned as a single chunk whose metadata comes
from the header split; but that metadata is not always free of
`chunking_method` — a section that begins with a markdown header carries
`chunking_method = "markdown_headers"`, and only a headerless section
has empty metadata (no `chunking_method` key). -/
theorem claimC3_amended (mx ovl : Int) (t : Str) (p : Str × Metadata)
    (hp : p ∈ splitByHeaders t)
    (hno : needsAdaptiveSplitting (mkChunker mx ovl) p.1 = false) :
    (⟨p.1, p.2⟩ : Chunk) ∈ chunkFn (mkChunker mx ovl) t ∧
      (p.2.chunkingMethod = some (str "markdown_headers") ∨ p.2 = emptyMeta) := by
  refine ⟨chunkFn_kept_section_mem _ t p hp hno, ?_⟩
  rcases splitByHeaders_metadata t p hp with h | h
  · rw [h]
    exact extractHeaderInfo_shape p.1
  · right
    exact h

theorem claimC3_amended_witness :
    (⟨str "hello", emptyMeta⟩ : Chunk) ∈ chunkFn (mkChunker 500 50) (str "hello") ∧
      (emptyMeta.chunkingMethod = some (str "markdown_headers") ∨ emptyMeta = emptyMeta) :=
  claimC3_amended 500 50 (str "hello") (str "hello", emptyMeta) (by decide) (by decide)

/-- Claim C3, counterexample: with the default configuration, the input
consisting of one small header section is not escalated and is returned
as a single chunk, yet its metadata from the header split carries
`chunking_method = "markdown_headers"` — not the absent `chunking_method`
key the claim asserts. -/
theorem claimC3_counterexample :
    chunkFn (mkChunker 500 50) (str "# T\nhello") =
      [⟨str "# T\nhello",
        ⟨some (str "T"), some (str "h1"), some (str "markdown_headers")⟩⟩] ∧
      needsAdaptiveSplitting (mkChunker 500 50) (str "# T\nhello") = false ∧
      (⟨some (str "T"), some (str "h1"),
        some (str "markdown_headers")⟩ : Metadata).chunkingMethod ≠ none := by
  exact ⟨by decide, by decide, by decide⟩


theorem point8_bridge (m : Int) (e : Nat) :
    0.8 * (m : ℚ) < (e : ℚ) ↔ 4 * m < 5 * (e : Int) := by
  have h8 : (0.8 : ℚ) = 4 / 5 := by norm_num
  constructor
  · intro hh
    have h2 : (4 : ℚ) * m < 5 * e := by rw [h8] at hh; nlinarith
    exact_mod_cast h2
  · intro hh
    have h2 : (4 : ℚ) * m < 5 * e := by exact_mod_cast hh
    rw [h8]; nlinarith

theorem needsAdaptive_iff (mx ovl : Int) (s : Str) :
    needsAdaptiveSplitting (mkChunker mx ovl) s = true ↔
      ((estimateTokens s : ℚ) > (mx : ℚ) ∨
        ((estimateTokens s : ℚ) > 0.8 * (mx : ℚ) ∧ hasMarkdownSubheaders s = true) ∨
        ((estimateTokens s : ℚ) > 0.8 * (mx : ℚ) ∧ hasBoldHeadings s 2 = true)) := by
  unfold needsAdaptiveSplitting mkChunker
  simp only [Bool.or_eq_true, Bool.and_eq_true, decide_eq_true_eq]
  have hb1 : ((mx : Int) < (estimateTokens s : Int)) ↔ ((estimateTokens s : ℚ) > (mx : ℚ)) := by
    rw [gt_iff_lt]
    exact_mod_cast Iff.rfl
  have hb2 : (4 * mx < 5 * (estimateTokens s : Int)) ↔
      ((estimateTokens s : ℚ) > 0.8 * (mx : ℚ)) := by
    rw [gt_iff_lt]
    exact (point8_bridge mx (estimateTokens s)).symm
  rw [hb1, hb2]
  tauto

/-- Claim C4: for each top-level section produced by the header split,
with token estimate `t`, the engine escalates the section (hands it to
the adaptive orchestrator) if and only if `t > max_tokens`, or
`t > 0.8 * max_tokens` and the section contains a level-2-to-6
sub-header, or `t > 0.8 * max_tokens` and the section contains at least
2 standalone bold headings; otherwise the section is kept as one chunk
unchanged.  The `0.8 ×` threshold is stated exactly, over the
rationals. -/
theorem claimC4_escalation_trigger (mx ovl : Int) (t : Str) :
    chunkFn (mkChunker mx ovl) t = (splitByHeaders t).flatMap (fun p =>
      if ((estimateTokens p.1 : ℚ) > (mx : ℚ) ∨
          ((estimateTokens p.1 : ℚ) > 0.8 * (mx : ℚ) ∧ hasMarkdownSubheaders p.1 = true) ∨
          ((estimateTokens p.1 : ℚ) > 0.8 * (mx : ℚ) ∧ hasBoldHeadings p.1 2 = true))
      then (splitLargeSectionAdaptive (mkChunker mx ovl) p.1 p.2).map
            (fun q : Str × Metadata => ⟨q.1, q.2⟩)
      else [⟨p.1, p.2⟩]) := by
  unfold chunkFn
  congr 1
  funext p
  by_cases h : needsAdaptiveSplitting (mkChunker mx ovl) p.1 = true
  · rw [if_pos h, if_pos ((needsAdaptive_iff mx ovl p.1).mp h)]
  · rw [if_neg (by simpa using h), if_neg (fun hc => h ((needsAdaptive_iff mx ovl p.1).mpr hc))]


theorem stripWS_stable_ne (s : Str) (h : stripWS s ≠ []) : stripWS (stripWS s) ≠ [] := by
  intro h2
  apply h
  rw [stripWS_nil_iff] at h2
  have hw : words (stripWS s) = [] := (words_nil_iff _).mpr h2
  rw [words_stripWS] at hw
  rw [stripWS_nil_iff]
  exact (words_nil_iff _).mp hw

theorem resultPath_members_stripped (raw : List Str) (M : Str → Metadata)
    (q : Str × Metadata)
    (hq : q ∈ ((raw.map stripWS).filter (fun s => !s.isEmpty)).map (fun s => (s, M s))) :
    (stripWS q.1).isEmpty = false := by
  obtain ⟨s, hs, hqs⟩ := List.mem_map.mp hq
  have hs2 := List.of_mem_filter hs
  have hsne : s ≠ [] := by simpa [List.isEmpty_iff] using hs2
  have hsm := List.mem_of_mem_filter hs
  obtain ⟨r, _, hrs⟩ := List.mem_map.mp hsm
  have : stripWS s ≠ [] := by
    rw [← hrs] at hsne ⊢
    exact stripWS_stable_ne r hsne
  rw [← hqs]
  simpa [List.isEmpty_iff] using this

theorem finalize_no_skip (c : Chunker) (secs : List (Str × Metadata))
    (h : ∀ q ∈ secs, (stripWS q.1).isEmpty = false) :
    finalizeSections c secs = secs.flatMap (fun q =>
      if (estimateTokens q.1 : Int) ≤ c.maxTokens then [q]
      else splitByParagraphs c q.1 q.2 false) := by
  unfold finalizeSections
  induction secs with
  | nil => rfl
  | cons q qs ih =>
    simp only [List.flatMap_cons]
    rw [h q (by simp)]
    have h2 := ih (fun r hr => h r (List.mem_cons_of_mem q hr))
    simp only [Bool.false_eq_true, if_false]
    rw [h2]
    by_cases he : (estimateTokens q.1 : Int) ≤ c.maxTokens
    · simp [he]
    · simp [he]

theorem tagLines_mem_fst (ls : List Str) (p : Str × Bool) (hp : p ∈ tagLines ls) :
    p.1 ∈ ls := by
  induction ls with
  | nil => simp [tagLines] at hp
  | cons l ls ih =>
    cases ls with
    | nil =>
      simp [tagLines] at hp
      simp [hp]
    | cons l2 ls2 =>
      rw [show tagLines (l :: l2 :: ls2) = (l, true) :: tagLines (l2 :: ls2) from rfl] at hp
      rcases List.mem_cons.mp hp with h | h
      · simp [h]
      · exact List.mem_cons_of_mem l (ih h)

theorem linesAux_mem_char (s : Str) : ∀ (cur : Str) (l : Str) (c : Char),
    l ∈ linesAux cur s → c ∈ l → c ∈ cur.reverse ++ s := by
  induction s with
  | nil =>
    intro cur l c hl hc
    simp [linesAux] at hl
    subst hl
    simpa using hc
  | cons d ds ih =>
    intro cur l c hl hc
    by_cases hd : d = '\n'
    · subst hd
      rw [show linesAux cur ('\n' :: ds) = cur.reverse :: linesAux [] ds from by
        simp [linesAux]] at hl
      rcases List.mem_cons.mp hl with h | h
      · subst h
        exact List.mem_append.mpr (Or.inl hc)
      · have := ih [] l c h hc
        simp at this
        simp [this]
    · rw [show linesAux cur (d :: ds) = linesAux (d :: cur) ds from by simp [linesAux, hd]] at hl
      have := ih (d :: cur) l c hl hc
      simp at this
      rcases this with h | h | h
      · simp [h]
      · simp [h]
      · simp [h]

theorem linesOf_mem_char (s l : Str) (c : Char) (hl : l ∈ linesOf s) (hc : c ∈ l) : c ∈ s := by
  have := linesAux_mem_char s [] l c hl hc
  simpa using this

theorem hashes_mem (l : Str) (h : 1 ≤ leadingHashes l) : '#' ∈ l := by
  unfold leadingHashes at h
  match hm : l.takeWhile (fun c => c == '#'), h with
  | c :: cs, _ =>
    have hcmem : c ∈ List.takeWhile (fun c => c == '#') l := by rw [hm]; simp
    have hc := List.mem_takeWhile_imp hcmem
    have hcm : c ∈ l := List.Sublist.mem hcmem (List.takeWhile_sublist (fun c => c == '#'))
    rw [show c = '#' from by simpa using hc] at hcm
    exact hcm
  | [], hh => simp [hm] at hh

theorem hasSub_strip_ne (t : Str) (h : hasMarkdownSubheaders t = true) : stripWS t ≠ [] := by
  unfold hasMarkdownSubheaders at h
  obtain ⟨p, hp, hflag⟩ := List.any_eq_true.mp h
  unfold isHeaderStartTagged at hflag
  simp only [Bool.and_eq_true, decide_eq_true_eq] at hflag
  have h2 : 2 ≤ leadingHashes p.1 := hflag.1.1
  have hhash : '#' ∈ p.1 := hashes_mem p.1 (by omega)
  have hmem : '#' ∈ t := linesOf_mem_char t p.1 '#' (tagLines_mem_fst _ p hp) hhash
  intro hnil
  have := (stripWS_nil_iff t).mp hnil '#' hmem
  simp [isWS] at this

theorem splitByHeaders_members_stripped (t : Str) (hsub : hasMarkdownSubheaders t = true) :
    ∀ q ∈ splitByHeaders t, (stripWS q.1).isEmpty = false := by
  intro q hq
  unfold splitByHeaders at hq
  by_cases he : ((((rawSections (isHeaderStartTagged 1) t).map stripWS).filter
      (fun s => !s.isEmpty)).map (fun s => (s, extractHeaderInfo s))).isEmpty
  · simp only [he, if_true] at hq
    have hqe : q = (t, emptyMeta) := by simpa using hq
    rw [hqe]
    simpa [List.isEmpty_iff] using hasSub_strip_ne t hsub
  · simp only [he, Bool.false_eq_true, if_false] at hq
    exact resultPath_members_stripped _ _ q hq

theorem splitByBoldHeadings_members_stripped (t : Str)
    (hlen : 2 ≤ (splitByBoldHeadings t).length) :
    ∀ q ∈ splitByBoldHeadings t, (stripWS q.1).isEmpty = false := by
  intro q hq
  unfold splitByBoldHeadings at hq hlen
  by_cases he : ((((rawSections (fun l _ => isBoldLine l) t).map stripWS).filter
      (fun s => !s.isEmpty)).map (fun s => (s, extractBoldHeadingInfo s))).isEmpty
  · rw [if_pos he] at hlen
    simp at hlen
  · simp only [he, Bool.false_eq_true, if_false] at hq
    exact resultPath_members_stripped _ _ q hq

theorem splitByStructuralMarkers_members_stripped (t : Str)
    (hlen : 2 ≤ (splitByStructuralMarkers t).length) :
    ∀ q ∈ splitByStructuralMarkers t, (stripWS q.1).isEmpty = false := by
  intro q hq
  unfold splitByStructuralMarkers at hq hlen
  by_cases he : ((((rawSections isStructMarkerLine t).map stripWS).filter
      (fun s => !s.isEmpty)).map
        (fun s => (s, (⟨some ((s.takeWhile (fun c => !(c == '\n'))).take 100),
          some (str "structural"), some (str "structural_markers")⟩ : Metadata)))).isEmpty
  · rw [if_pos he] at hlen
    simp at hlen
  · simp only [he, Bool.false_eq_true, if_false] at hq
    exact resultPath_members_stripped _ _ q hq

/-- Claim C5: for every escalated section the orchestrator applies
passes in strict priority: if the text has level-2-to-6 sub-headers the
header pass runs and is always accepted; else if it has at least 2
standalone bold headings and the bold split yields at least 2 sections
that pass is accepted; else if the structural-marker split yields at
least 2 sections that pass is accepted; otherwise the section is packed
by paragraphs with `use_increased_overlap` set and `chunking_method`
forced to `"paragraph_split"`.  In passes 1–3 each resulting subsection
within budget is kept as-is and each over-budget subsection is packed by
the paragraph/sentence packer with no further escalation. -/
theorem claimC5_adaptive_priority (c : Chunker) (text : Str) (m : Metadata) :
    splitLargeSectionAdaptive c text m =
      if hasMarkdownSubheaders text = true then
        (splitByHeaders text).flatMap (fun q =>
          if (estimateTokens q.1 : Int) ≤ c.maxTokens then [q]
          else splitByParagraphs c q.1 q.2 false)
      else if hasBoldHeadings text 2 = true ∧ 2 ≤ (splitByBoldHeadings text).length then
        (splitByBoldHeadings text).flatMap (fun q =>
          if (estimateTokens q.1 : Int) ≤ c.maxTokens then [q]
          else splitByParagraphs c q.1 q.2 false)
      else if 2 ≤ (splitByStructuralMarkers text).length then
        (splitByStructuralMarkers text).flatMap (fun q =>
          if (estimateTokens q.1 : Int) ≤ c.maxTokens then [q]
          else splitByParagraphs c q.1 q.2 false)
      else splitByParagraphs c text (withMethod m (str "paragraph_split")) true := by
  unfold splitLargeSectionAdaptive
  by_cases h1 : hasMarkdownSubheaders text = true
  · rw [if_pos h1, if_pos h1]
    exact finalize_no_skip c _ (splitByHeaders_members_stripped text h1)
  · rw [if_neg (by simpa using h1), if_neg h1]
    by_cases h2 : hasBoldHeadings text 2 = true
    · rw [if_pos h2]
      by_cases h3 : 2 ≤ (splitByBoldHeadings text).length
      · rw [if_pos (by simpa using h3), if_pos ⟨h2, h3⟩]
        exact finalize_no_skip c _ (splitByBoldHeadings_members_stripped text h3)
      · rw [if_neg (by simpa using h3), if_neg (by tauto)]
        unfold adaptivePass3
        by_cases h4 : 2 ≤ (splitByStructuralMarkers text).length
        · rw [if_pos (by simpa using h4), if_pos h4]
          exact finalize_no_skip c _ (splitByStructuralMarkers_members_stripped text h4)
        · rw [if_neg (by simpa using h4), if_neg h4]
    · rw [if_neg (by simpa using h2), if_neg (by tauto)]
      unfold adaptivePass3
      by_cases h4 : 2 ≤ (splitByStructuralMarkers text).length
      · rw [if_pos (by simpa using h4), if_pos h4]
        exact finalize_no_skip c _ (splitByStructuralMarkers_members_stripped text h4)
      · rw [if_neg (by simpa using h4), if_neg h4]


theorem groupsByAux_no_flags (p : β → Bool) (l : List β) (h : ∀ x ∈ l, p x = false) :
    ∀ cur : List β, groupsByAux p cur l = [cur.reverse ++ l] := by
  induction l with
  | nil => intro cur; simp [groupsByAux]
  | cons x xs ih =>
    intro cur
    have hx : p x = false := h x (by simp)
    simp only [groupsByAux, hx, Bool.false_eq_true, if_false]
    rw [ih (fun y hy => h y (List.mem_cons_of_mem x hy)) (x :: cur)]
    simp

theorem leadingHashes_ws (l : Str) (h : ∀ c ∈ l, isWS c = true) : leadingHashes l = 0 := by
  unfold leadingHashes
  cases l with
  | nil => simp
  | cons c cs =>
    have hc : isWS c = true := h c (by simp)
    have hne : (c == '#') = false := by
      by_contra hcc
      have : c = '#' := by
        have := Bool.not_eq_false (c == '#') |>.mp hcc
        simpa using this
      rw [this] at hc
      simp [isWS] at hc
    simp [List.takeWhile, hne]

theorem splitByHeaders_ws_only (t : Str) (hws : ∀ c ∈ t, isWS c = true) :
    splitByHeaders t = [(t, emptyMeta)] := by
  have hlines : ∀ q ∈ tagLines (linesOf t), (fun p : Str × Bool =>
      isHeaderStartTagged 1 p.1 p.2) q = false := by
    intro q hq
    have hl : ∀ c ∈ q.1, isWS c = true :=
      fun c hc => hws c (linesOf_mem_char t q.1 c (tagLines_mem_fst _ q hq) hc)
    have h0 : leadingHashes q.1 = 0 := leadingHashes_ws q.1 hl
    unfold isHeaderStartTagged
    simp [h0]
  have hraw : rawSections (isHeaderStartTagged 1) t = [t] := by
    unfold rawSections groupsBy
    rw [groupsByAux_no_flags _ _ hlines []]
    simp only [List.reverse_nil, List.nil_append, List.map_cons, List.map_nil]
    rw [tagLines_map_fst, linesOf_intercalate]
  have hstrip : stripWS t = [] := (stripWS_nil_iff t).mpr hws
  unfold splitByHeaders
  rw [hraw]
  simp [hstrip]

/-- Claim C7: for every input that is empty or contains no
non-whitespace content (and any positive `max_tokens`), `chunk` returns
exactly one chunk whose content is the original (possibly empty) input
text and whose metadata is the empty mapping. -/
theorem claimC7_whitespace_input (mx ovl : Int) (t : Str) (hmx : 0 < mx)
    (hws : ∀ c ∈ t, isWS c = true) :
    chunkFn (mkChunker mx ovl) t = [⟨t, emptyMeta⟩] := by
  have hsec := splitByHeaders_ws_only t hws
  have hest : estimateTokens t = 0 := by
    unfold estimateTokens
    rw [(words_nil_iff t).mpr hws]
    rfl
  have hno : needsAdaptiveSplitting (mkChunker mx ovl) t = false := by
    unfold needsAdaptiveSplitting mkChunker
    rw [hest]
    have h1 : decide ((mx : Int) < ((0 : Nat) : Int)) = false := by
      simp
      omega
    have h2 : decide (4 * (mx : Int) < 5 * ((0 : Nat) : Int)) = false := by
      simp
      omega
    simp only [h1, h2, Bool.false_and, Bool.or_false, Bool.false_or]
  unfold chunkFn
  rw [hsec]
  simp [hno]

/-- Witness: `chunk("")` with the default configuration returns exactly
one chunk with empty content and empty metadata. -/
theorem claimC7_witness :
    chunkFn (mkChunker 500 50) (str "") = [⟨str "", emptyMeta⟩] :=
  claimC7_whitespace_input 500 50 (str "") (by decide) (by decide)


theorem overlapAux_spec (target : Int) : ∀ (rs : List Str) (tok : Nat) (ov : Str),
    (tok : Int) ≤ target →
    ∃ tk dr : List Str, rs = tk ++ dr ∧
      words (overlapAux target rs tok ov) = ((tk.reverse.map words).flatten) ++ words ov ∧
      (((tok + (tk.map estimateTokens).sum : Nat) : Int) ≤ target) ∧
      (dr = [] ∨ ∃ d dtail, dr = d :: dtail ∧
        target < ((tok + (tk.map estimateTokens).sum : Nat) : Int) + estimateTokens d) := by
  intro rs
  induction rs with
  | nil =>
    intro tok ov htok
    refine ⟨[], [], by simp, by simp [overlapAux], by simpa using htok, Or.inl rfl⟩
  | cons s rest ih =>
    intro tok ov htok
    by_cases hover : target < (tok : Int) + estimateTokens s
    · refine ⟨[], s :: rest, by simp, ?_, by simpa using htok, ?_⟩
      · simp [overlapAux, hover]
      · right
        exact ⟨s, rest, rfl, by simpa using hover⟩
    · have hstep : overlapAux target (s :: rest) tok ov =
          overlapAux target rest (tok + estimateTokens s)
            (s ++ (if ov.isEmpty then [] else [' ']) ++ ov) := by
        simp [overlapAux, hover]
      have hle : ((tok + estimateTokens s : Nat) : Int) ≤ target := by
        push_cast
        push_cast at hover
        omega
      obtain ⟨tk, dr, hsplit, hwords, hsum, hmax⟩ :=
        ih (tok + estimateTokens s) (s ++ (if ov.isEmpty then [] else [' ']) ++ ov) hle
      have hov : words (s ++ (if ov.isEmpty then [] else [' ']) ++ ov) =
          words s ++ words ov := by
        by_cases hoe : ov.isEmpty
        · have : ov = [] := by simpa [List.isEmpty_iff] using hoe
          subst this
          simp [hoe, words_nil]
        · simp only [hoe, Bool.false_eq_true, if_false]
          exact words_append_sep s [' '] ov (by simp)
            (by intro d hd; simp at hd; subst hd; rfl)
      refine ⟨s :: tk, dr, by simp [hsplit], ?_, ?_, ?_⟩
      · rw [hstep, hwords, hov]
        simp only [List.reverse_cons, List.map_append, List.flatten_append]
        simp [List.append_assoc]
      · have : tok + estimateTokens s + (tk.map estimateTokens).sum =
            tok + ((s :: tk).map estimateTokens).sum := by
          simp
          omega
        rw [← this]
        exact hsum
      · rcases hmax with h | ⟨d, dtail, hdr, hbig⟩
        · exact Or.inl h
        · right
          refine ⟨d, dtail, hdr, ?_⟩
          have : tok + estimateTokens s + (tk.map estimateTokens).sum =
              tok + ((s :: tk).map estimateTokens).sum := by
            simp
            omega
          rw [← this]
          exact hbig

theorem getOverlapText_spec (prev : Str) (target : Int) (hne : prev ≠ [])
    (hpos : 0 < target) :
    ∃ R S : List Str, splitSents prev = R ++ S ∧
      words (getOverlapText prev target) = ((S.map words).flatten) ∧
      (((S.map estimateTokens).sum : Nat) : Int) ≤ target ∧
      (R = [] ∨ ∃ lastR, R.getLast? = some lastR ∧
        target < (((S.map estimateTokens).sum : Nat) : Int) + estimateTokens lastR) := by
  obtain ⟨tk, dr, hsplit, hwords, hsum, hmax⟩ :=
    overlapAux_spec target (splitSents prev).reverse 0 [] (by simpa using le_of_lt hpos)
  refine ⟨dr.reverse, tk.reverse, ?_, ?_, ?_, ?_⟩
  · have := congrArg List.reverse hsplit
    simpa using this
  · have hgot : getOverlapText prev target =
        stripWS (overlapAux target (splitSents prev).reverse 0 []) := by
      unfold getOverlapText
      rw [if_neg]
      simp only [Bool.or_eq_true, not_or, List.isEmpty_iff, decide_eq_true_eq]
      exact ⟨hne, by omega⟩
    rw [hgot, words_stripWS, hwords]
    simp [words_nil]
  · have h9 : (tk.reverse.map estimateTokens).sum = (tk.map estimateTokens).sum := by
      rw [List.map_reverse]
      exact List.sum_reverse _
    rw [h9]
    simpa using hsum
  · rcases hmax with h | ⟨d, dtail, hdr, hbig⟩
    · subst h
      exact Or.inl rfl
    · right
      refine ⟨d, ?_, ?_⟩
      · rw [hdr]
        simp
      · have h9 : (tk.reverse.map estimateTokens).sum = (tk.map estimateTokens).sum := by
          rw [List.map_reverse]
          exact List.sum_reverse _
        rw [h9]
        simpa using hbig

theorem addOverlapsAux_get?_zero (ovl : Int) (pv : Str) (c : Str × Metadata)
    (cs : List (Str × Metadata)) :
    (addOverlapsAux ovl pv (c :: cs)).get? 0 =
      some (getOverlapText pv ovl ++ '\n' :: '\n' :: c.1, c.2) := rfl

theorem addOverlapsAux_get?_succ (ovl : Int) (pv : Str) (c : Str × Metadata)
    (cs : List (Str × Metadata)) (j : Nat) :
    (addOverlapsAux ovl pv (c :: cs)).get? (j + 1) = (addOverlapsAux ovl c.1 cs).get? j := rfl

theorem addOverlapsAux_get? (ovl : Int) : ∀ (j : Nat) (xs : List (Str × Metadata)) (pv : Str)
    (prevCh curCh : Str × Metadata), xs.get? j = some prevCh → xs.get? (j + 1) = some curCh →
    (addOverlapsAux ovl pv xs).get? (j + 1) =
      some (getOverlapText prevCh.1 ovl ++ '\n' :: '\n' :: curCh.1, curCh.2) := by
  intro j
  induction j with
  | zero =>
    intro xs pv prevCh curCh hp hc
    match xs, hp, hc with
    | p0 :: p1 :: rest, hp, hc =>
      have h0 : p0 = prevCh := by simpa using hp
      have h1 : p1 = curCh := by simpa using hc
      subst h0
      subst h1
      rfl
  | succ j ih =>
    intro xs pv prevCh curCh hp hc
    match xs with
    | x :: xs2 =>
      have hp2 : xs2.get? j = some prevCh := by simpa using hp
      have hc2 : xs2.get? (j + 1) = some curCh := by simpa using hc
      rw [addOverlapsAux_get?_succ]
      exact ih xs2 x.1 prevCh curCh hp2 hc2

theorem addOverlaps_get? (ovl : Int) (L : List (Str × Metadata)) (i : Nat)
    (prevCh curCh : Str × Metadata) (hp : L.get? i = some prevCh)
    (hc : L.get? (i + 1) = some curCh) :
    (addOverlaps ovl L).get? (i + 1) =
      some (getOverlapText prevCh.1 ovl ++ '\n' :: '\n' :: curCh.1, curCh.2) := by
  match L with
  | x :: xs =>
    cases i with
    | zero =>
      have h0 : x = prevCh := by simpa using hp
      have h1 : xs.get? 0 = some curCh := by simpa using hc
      match xs, h1 with
      | y :: rest, h1 =>
        have h2 : y = curCh := by simpa using h1
        subst h0
        subst h2
        rfl
    | succ j =>
      have hp2 : xs.get? j = some prevCh := by simpa using hp
      have hc2 : xs.get? (j + 1) = some curCh := by simpa using hc
      show (addOverlapsAux ovl x.1 xs).get? (j + 1) = _
      exact addOverlapsAux_get? ovl j xs x.1 prevCh curCh hp2 hc2

theorem splitByParagraphs_overlap_eq (mx ovl : Int) (t : Str) (m : Metadata)
    (hlen : 1 < ((packParas mx (splitDoubleNl t)).map
      (fun p => (renderPacked p, m))).length) :
    splitByParagraphs (mkChunker mx ovl) t m true =
      addOverlaps (ovl * 2)
        ((packParas mx (splitDoubleNl t)).map (fun p => (renderPacked p, m))) := by
  unfold splitByParagraphs
  have hd : decide (1 < ((packParas (mkChunker mx ovl).maxTokens (splitDoubleNl t)).map
      (fun p => (renderPacked p, m))).length) = true := by
    simpa using hlen
  simp only [Bool.true_and, hd, if_true]
  rfl

theorem getOverlapText_nil_of_big_last (prev : Str) (target : Int) (ls : Str)
    (hlast : (splitSents prev).getLast? = some ls)
    (hbig : target < (estimateTokens ls : Int)) : getOverlapText prev target = [] := by
  unfold getOverlapText
  by_cases he : (prev.isEmpty || decide (target ≤ 0)) = true
  · simp [he]
  · rw [if_neg (by simpa using he)]
    have hrev : (splitSents prev).reverse.head? = some ls := by
      rw [List.head?_reverse]
      exact hlast
    match hm : (splitSents prev).reverse, hrev with
    | l0 :: rest, hrev =>
      have h0 : l0 = ls := by simpa using hrev
      subst h0
      have hstep : overlapAux target (l0 :: rest) 0 [] = [] := by
        unfold overlapAux
        rw [if_pos (by simpa using hbig)]
      rw [hstep]
      rfl

/-- Claim C10: in the fallback pass, if the backward overlap window from
the preceding chunk is empty, the following chunk's content is still
rewritten to the empty overlap joined with a blank line — it equals
`"\n\n"` followed by its packed text, gaining a leading blank line and
beginning with no suffix of the previous chunk.  The second conjunct
covers the claim's example trigger: when the preceding chunk's last
sentence alone estimates above `2 * overlap_tokens`, no whole sentence
fits and the window is empty. -/
theorem claimC10_empty_window (mx ovl : Int) (t : Str) (m : Metadata) (i : Nat)
    (prevCh curCh : Str × Metadata)
    (hlen : 1 < ((packParas mx (splitDoubleNl t)).map
      (fun p => (renderPacked p, m))).length)
    (hprev : ((packParas mx (splitDoubleNl t)).map
      (fun p => (renderPacked p, m))).get? i = some prevCh)
    (hcur : ((packParas mx (splitDoubleNl t)).map
      (fun p => (renderPacked p, m))).get? (i + 1) = some curCh)
    (hov : getOverlapText prevCh.1 (ovl * 2) = []) :
    (splitByParagraphs (mkChunker mx ovl) t m true).get? (i + 1) =
      some ('\n' :: '\n' :: curCh.1, curCh.2) ∧
    (∀ (prev ls : Str), (splitSents prev).getLast? = some ls →
      ovl * 2 < (estimateTokens ls : Int) → getOverlapText prev (ovl * 2) = []) := by
  constructor
  · rw [splitByParagraphs_overlap_eq mx ovl t m hlen]
    rw [addOverlaps_get? (ovl * 2) _ i prevCh curCh hprev hcur]
    rw [hov]
    rfl
  · intro prev ls hlast hbig
    exact getOverlapText_nil_of_big_last prev (ovl * 2) ls hlast hbig

theorem claimC10_empty_window_witness :
    (splitByParagraphs (mkChunker 3 1) (str "aa bb cc dd\n\nee ff gg hh") emptyMeta true).get? 1 =
      some ('\n' :: '\n' :: str "ee ff gg hh", emptyMeta) ∧
    (∀ (prev ls : Str), (splitSents prev).getLast? = some ls →
      1 * 2 < (estimateTokens ls : Int) → getOverlapText prev (1 * 2) = []) :=
  claimC10_empty_window 3 1 (str "aa bb cc dd\n\nee ff gg hh") emptyMeta 0
    (str "aa bb cc dd", emptyMeta) (str "ee ff gg hh", emptyMeta)
    (by decide) (by decide) (by decide) (by decide)

/-- Claim C6, counterexample: with `max_tokens = 3`, `overlap_tokens = 1`
(overlap budget `2`), a fallback-pass input packs into two chunks whose
first chunk is a single sentence of estimate 5 > 2, so the overlap
window is empty and the second chunk's content starts with a bare blank
line — the prepended suffix is not non-empty as the claim asserts. -/
theorem claimC6_counterexample :
    chunkFn (mkChunker 3 1) (str "aa bb cc dd\n\nee ff gg hh") =
      [⟨str "aa bb cc dd", ⟨none, none, some (str "paragraph_split")⟩⟩,
       ⟨str "\n\nee ff gg hh", ⟨none, none, some (str "paragraph_split")⟩⟩] ∧
    getOverlapText (str "aa bb cc dd") (1 * 2) = [] := by
  exact ⟨by decide, by decide⟩

/-- Claim C6, amended: in the fallback pass, whenever packing yields more
than one chunk, every chunk except the first is recomputed by prepending
the overlap window built from the immediately preceding packed chunk
joined with a blank line, where the window accumulates whole sentences
from that chunk's end while the running estimate stays within the budget
`increased_overlap = 2 * overlap_tokens`, stopping before any sentence
would exceed it; the window may be empty (when even the last sentence
alone overflows the budget), not necessarily non-empty as claimed.
Conjunct 3 states the window property: the window's words are exactly
those of a trailing run of the previous chunk's sentences whose estimate
sum is within budget, and the run is maximal (when sentences remain, the
next one would overflow). -/
theorem claimC6_amended (mx ovl : Int) (t : Str) (m : Metadata)
    (hlen : 1 < ((packParas mx (splitDoubleNl t)).map
      (fun p => (renderPacked p, m))).length) :
    (splitByParagraphs (mkChunker mx ovl) t m true =
      addOverlaps (ovl * 2)
        ((packParas mx (splitDoubleNl t)).map (fun p => (renderPacked p, m)))) ∧
    (∀ (i : Nat) (prevCh curCh : Str × Metadata),
      ((packParas mx (splitDoubleNl t)).map (fun p => (renderPacked p, m))).get? i =
        some prevCh →
      ((packParas mx (splitDoubleNl t)).map (fun p => (renderPacked p, m))).get? (i + 1) =
        some curCh →
      (splitByParagraphs (mkChunker mx ovl) t m true).get? (i + 1) =
        some (getOverlapText prevCh.1 (ovl * 2) ++ '\n' :: '\n' :: curCh.1, curCh.2)) ∧
    (∀ prev : Str, prev ≠ [] → 0 < ovl * 2 →
      ∃ R S : List Str, splitSents prev = R ++ S ∧
        words (getOverlapText prev (ovl * 2)) = ((S.map words).flatten) ∧
        (((S.map estimateTokens).sum : Nat) : Int) ≤ ovl * 2 ∧
        (R = [] ∨ ∃ lastR, R.getLast? = some lastR ∧
          ovl * 2 < (((S.map estimateTokens).sum : Nat) : Int) + estimateTokens lastR)) := by
  refine ⟨splitByParagraphs_overlap_eq mx ovl t m hlen, ?_, ?_⟩
  · intro i prevCh curCh hp hc
    rw [splitByParagraphs_overlap_eq mx ovl t m hlen]
    exact addOverlaps_get? (ovl * 2) _ i prevCh curCh hp hc
  · intro prev hne hpos
    exact getOverlapText_spec prev (ovl * 2) hne hpos

theorem claimC6_amended_witness :
    (splitByParagraphs (mkChunker 2 1) (str "a. b.\n\nc. d.") emptyMeta true =
      addOverlaps (1 * 2)
        ((packParas 2 (splitDoubleNl (str "a. b.\n\nc. d."))).map
          (fun p => (renderPacked p, emptyMeta)))) ∧
    (∀ (i : Nat) (prevCh curCh : Str × Metadata),
      ((packParas 2 (splitDoubleNl (str "a. b.\n\nc. d."))).map
        (fun p => (renderPacked p, emptyMeta))).get? i = some prevCh →
      ((packParas 2 (splitDoubleNl (str "a. b.\n\nc. d."))).map
        (fun p => (renderPacked p, emptyMeta))).get? (i + 1) = some curCh →
      (splitByParagraphs (mkChunker 2 1) (str "a. b.\n\nc. d.") emptyMeta true).get? (i + 1) =
        some (getOverlapText prevCh.1 (1 * 2) ++ '\n' :: '\n' :: curCh.1, curCh.2)) ∧
    (∀ prev : Str, prev ≠ [] → (0 : Int) < 1 * 2 →
      ∃ R S : List Str, splitSents prev = R ++ S ∧
        words (getOverlapText prev (1 * 2)) = ((S.map words).flatten) ∧
        (((S.map estimateTokens).sum : Nat) : Int) ≤ 1 * 2 ∧
        (R = [] ∨ ∃ lastR, R.getLast? = some lastR ∧
          1 * 2 < (((S.map estimateTokens).sum : Nat) : Int) + estimateTokens lastR)) :=
  claimC6_amended 2 1 (str "a. b.\n\nc. d.") emptyMeta (by decide)


theorem noSentBreak_snoc (xs : Str) (c : Char) (h1 : noSentBreak xs = true)
    (h2 : ∀ lc, xs.getLast? = some lc → (isSentEnd lc && isWS c) = false) :
    noSentBreak (xs ++ [c]) = true := by
  induction xs with
  | nil => rfl
  | cons a as ih =>
    cases as with
    | nil =>
      show noSentBreak (a :: c :: []) = true
      rw [noSentBreak.eq_def]
      simp only []
      rw [if_neg]
      · rfl
      · rw [h2 a (by rfl)]
        simp
    | cons b bs =>
      have hab : (isSentEnd a && isWS b) = false := by
        by_contra hcc
        have : (isSentEnd a && isWS b) = true := by
          simpa using hcc
        rw [noSentBreak.eq_def] at h1
        simp only [this, if_true] at h1
        exact Bool.false_ne_true h1
      have h1' : noSentBreak (b :: bs) = true := by
        rw [noSentBreak.eq_def] at h1
        simpa [hab] using h1
      have h2' : ∀ lc, (b :: bs).getLast? = some lc → (isSentEnd lc && isWS c) = false := by
        intro lc hlc
        exact h2 lc (by rw [← hlc]; simp)
      have := ih h1' h2'
      show noSentBreak (a :: (b :: bs ++ [c])) = true
      rw [noSentBreak.eq_def]
      simpa [hab] using this

theorem splitSents_pieces_aux (s : Str) :
    (∀ cur : Str, noSentBreak cur.reverse = true →
      ∀ u ∈ splitSentsAux false cur s, noSentBreak u = true) ∧
    (∀ u ∈ splitSentsAux true [] s, noSentBreak u = true) := by
  induction s with
  | nil =>
    constructor
    · intro cur hcur u hu
      simp only [splitSentsAux, List.mem_singleton] at hu
      subst hu
      exact hcur
    · intro u hu
      simp only [splitSentsAux, List.mem_singleton] at hu
      subst hu
      rfl
  | cons c cs ih =>
    obtain ⟨ihF, ihT⟩ := ih
    constructor
    · intro cur hcur u hu
      cases cur with
      | nil =>
        rw [show splitSentsAux false [] (c :: cs) = splitSentsAux false [c] cs from by
          simp [splitSentsAux]] at hu
        exact ihF [c] (by rfl) u hu
      | cons p rest =>
        by_cases hb : (isWS c && isSentEnd p) = true
        · rw [show splitSentsAux false (p :: rest) (c :: cs) =
              (p :: rest).reverse :: splitSentsAux true [] cs from by
            simp [splitSentsAux, hb]] at hu
          rcases List.mem_cons.mp hu with h | h
          · subst h; exact hcur
          · exact ihT u h
        · rw [show splitSentsAux false (p :: rest) (c :: cs) =
              splitSentsAux false (c :: p :: rest) cs from by
            simp only [splitSentsAux, Bool.false_eq_true, if_false]
            rw [if_neg hb]] at hu
          refine ihF (c :: p :: rest) ?_ u hu
          rw [List.reverse_cons]
          refine noSentBreak_snoc (p :: rest).reverse c hcur ?_
          intro lc hlc
          rw [List.getLast?_reverse] at hlc
          have hp : p = lc := by simpa using hlc
          subst hp
          by_contra hcc
          apply hb
          have h3 : (isSentEnd p && isWS c) = true := by simpa using hcc
          simp only [Bool.and_eq_true] at h3
          simp [h3.1, h3.2]
    · intro u hu
      by_cases hc : isWS c
      · rw [show splitSentsAux true [] (c :: cs) = splitSentsAux true [] cs from by
          simp [splitSentsAux, hc]] at hu
        exact ihT u hu
      · rw [show splitSentsAux true [] (c :: cs) = splitSentsAux false [c] cs from by
          simp [splitSentsAux, hc]] at hu
        exact ihF [c] (by rfl) u hu

theorem splitSents_pieces (s : Str) : ∀ u ∈ splitSents s, noSentBreak u = true :=
  (splitSents_pieces_aux s).1 [] (by rfl)

theorem wc_le_est (s : Str) : (words s).length ≤ estimateTokens s := by
  unfold estimateTokens
  have h : (words s).length * 10 ≤ (words s).length * 13 := by omega
  calc (words s).length = (words s).length * 10 / 10 := by omega
    _ ≤ (words s).length * 13 / 10 := Nat.div_le_div_right h

theorem wc_intercalate (sep : Str) (hne : sep ≠ []) (hws : ∀ c ∈ sep, isWS c = true)
    (us : List Str) :
    (words (List.intercalate sep us)).length = (us.map (fun u => (words u).length)).sum := by
  rw [words_intercalate sep hne hws us]
  rw [List.length_flatten]
  simp [List.map_map]
  rfl

theorem wc_sum_le_est_sum (us : List Str) :
    (us.map (fun u => (words u).length)).sum ≤ (us.map estimateTokens).sum := by
  induction us with
  | nil => rfl
  | cons u us ih =>
    simp only [List.map_cons, List.sum_cons]
    exact Nat.add_le_add (wc_le_est u) ih

theorem getOverlapText_wc_le (prev : Str) (target : Int) (h : 0 ≤ target) :
    ((words (getOverlapText prev target)).length : Int) ≤ target := by
  by_cases he : (prev.isEmpty || decide (target ≤ 0)) = true
  · rw [show getOverlapText prev target = [] from by unfold getOverlapText; simp [he]]
    simpa using h
  · have hne : prev ≠ [] := by
      simp only [Bool.or_eq_true, List.isEmpty_iff, decide_eq_true_eq, not_or] at he
      exact he.1
    have hpos : 0 < target := by
      simp only [Bool.or_eq_true, List.isEmpty_iff, decide_eq_true_eq, not_or] at he
      omega
    obtain ⟨R, S, _, hwords, hsum, _⟩ := getOverlapText_spec prev target hne hpos
    rw [hwords, List.length_flatten]
    have h1 : ((S.map words).map List.length).sum = (S.map (fun u => (words u).length)).sum := by
      simp [List.map_map]
      rfl
    rw [h1]
    calc ((S.map (fun u => (words u).length)).sum : Int)
        ≤ ((S.map estimateTokens).sum : Int) := by exact_mod_cast wc_sum_le_est_sum S
      _ ≤ target := hsum

theorem packSentencesAux_good (mx : Int) (SS : List Str) :
    ∀ (ss : List Str) (done : List (List Str)) (cur : List Str) (curTok : Nat),
    (∀ s ∈ ss, s ∈ SS) →
    curTok = (cur.map estimateTokens).sum →
    (cur = [] ∨ ((cur.map estimateTokens).sum : Int) ≤ mx ∨
      (∃ u, cur = [u] ∧ mx < (estimateTokens u : Int) ∧ u ∈ SS)) →
    (∀ g ∈ done, ((g.map estimateTokens).sum : Int) ≤ mx ∨
      (∃ u, g = [u] ∧ mx < (estimateTokens u : Int) ∧ u ∈ SS)) →
    ∀ g ∈ packSentencesAux mx done cur curTok ss,
      ((g.map estimateTokens).sum : Int) ≤ mx ∨
        (∃ u, g = [u] ∧ mx < (estimateTokens u : Int) ∧ u ∈ SS) := by
  intro ss
  induction ss with
  | nil =>
    intro done cur curTok hss htok hcur hdone g hg
    by_cases hce : cur.isEmpty
    · rw [show packSentencesAux mx done cur curTok [] = done from by
        simp [packSentencesAux, hce]] at hg
      exact hdone g hg
    · rw [show packSentencesAux mx done cur curTok [] = done ++ [cur] from by
        simp [packSentencesAux, hce]] at hg
      rcases List.mem_append.mp hg with h | h
      · exact hdone g h
      · have hgc : g = cur := by simpa using h
        subst hgc
        rcases hcur with h | h | h
        · exact absurd h (by simpa [List.isEmpty_iff] using hce)
        · exact Or.inl h
        · exact Or.inr h
  | cons s ss ih =>
    intro done cur curTok hss htok hcur hdone g hg
    have hsS : s ∈ SS := hss s (by simp)
    have hss2 : ∀ x ∈ ss, x ∈ SS := fun x hx => hss x (List.mem_cons_of_mem s hx)
    by_cases hover : mx < (curTok : Int) + estimateTokens s
    · rw [show packSentencesAux mx done cur curTok (s :: ss) =
          packSentencesAux mx (if cur.isEmpty then done else done ++ [cur]) [s]
            (estimateTokens s) ss from by simp [packSentencesAux, hover]] at hg
      have hdone2 : ∀ g2 ∈ (if cur.isEmpty then done else done ++ [cur]),
          ((g2.map estimateTokens).sum : Int) ≤ mx ∨
            (∃ u, g2 = [u] ∧ mx < (estimateTokens u : Int) ∧ u ∈ SS) := by
        intro g2 hg2
        by_cases hce : cur.isEmpty
        · rw [if_pos hce] at hg2
          exact hdone g2 hg2
        · rw [if_neg hce] at hg2
          rcases List.mem_append.mp hg2 with h | h
          · exact hdone g2 h
          · have hgc : g2 = cur := by simpa using h
            subst hgc
            rcases hcur with h | h | h
            · exact absurd h (by simpa [List.isEmpty_iff] using hce)
            · exact Or.inl h
            · exact Or.inr h
      refine ih _ _ _ hss2 (by simp) ?_ hdone2 g hg
      by_cases hbig : mx < (estimateTokens s : Int)
      · exact Or.inr (Or.inr ⟨s, rfl, hbig, hsS⟩)
      · refine Or.inr (Or.inl ?_)
        simp only [List.map_cons, List.map_nil, List.sum_cons, List.sum_nil]
        push_cast
        omega
    · rw [show packSentencesAux mx done cur curTok (s :: ss) =
          packSentencesAux mx done (cur ++ [s]) (curTok + estimateTokens s) ss from by
        simp [packSentencesAux, hover]] at hg
      refine ih _ _ _ hss2 (by simp [htok]) ?_ hdone g hg
      refine Or.inr (Or.inl ?_)
      have heq2 : ((cur ++ [s]).map estimateTokens).sum = curTok + estimateTokens s := by
        simp [htok]
      rw [heq2]
      push_cast at hover ⊢
      omega

theorem packParasAux_good (mx : Int) (hmx : (0 : Int) ≤ mx) :
    ∀ (ps : List Str) (done : List Packed) (cur : List Str) (curTok : Nat),
    curTok = (cur.map estimateTokens).sum →
    ((cur.map estimateTokens).sum : Int) ≤ mx →
    (∀ pk ∈ done, (((packedUnits pk).map estimateTokens).sum : Int) ≤ mx ∨
      (∃ u, pk = .sents [u] ∧ mx < (estimateTokens u : Int) ∧ noSentBreak u = true)) →
    ∀ pk ∈ packParasAux mx done cur curTok ps,
      (((packedUnits pk).map estimateTokens).sum : Int) ≤ mx ∨
        (∃ u, pk = .sents [u] ∧ mx < (estimateTokens u : Int) ∧ noSentBreak u = true) := by
  intro ps
  induction ps with
  | nil =>
    intro done cur curTok htok hcur hdone pk hpk
    by_cases hce : cur.isEmpty
    · rw [show packParasAux mx done cur curTok [] = done from by
        simp [packParasAux, hce]] at hpk
      exact hdone pk hpk
    · rw [show packParasAux mx done cur curTok [] = done ++ [.paras cur] from by
        simp [packParasAux, hce]] at hpk
      rcases List.mem_append.mp hpk with h | h
      · exact hdone pk h
      · have hp : pk = .paras cur := by simpa using h
        subst hp
        exact Or.inl (by simpa [packedUnits] using hcur)
  | cons p ps ih =>
    intro done cur curTok htok hcur hdone pk hpk
    have hflushed : ∀ pk2 ∈ (if cur.isEmpty then done else done ++ [Packed.paras cur]),
        (((packedUnits pk2).map estimateTokens).sum : Int) ≤ mx ∨
          (∃ u, pk2 = .sents [u] ∧ mx < (estimateTokens u : Int) ∧ noSentBreak u = true) := by
      intro pk2 hpk2
      by_cases hce : cur.isEmpty
      · rw [if_pos hce] at hpk2
        exact hdone pk2 hpk2
      · rw [if_neg hce] at hpk2
        rcases List.mem_append.mp hpk2 with h | h
        · exact hdone pk2 h
        · have hp : pk2 = .paras cur := by simpa using h
          subst hp
          exact Or.inl (by simpa [packedUnits] using hcur)
    by_cases hbig : mx < (estimateTokens p : Int)
    · rw [show packParasAux mx done cur curTok (p :: ps) =
          packParasAux mx
            ((if cur.isEmpty then done else done ++ [.paras cur]) ++
              (packSentences mx (splitSents p)).map .sents) [] 0 ps from by
        simp [packParasAux, hbig]] at hpk
      refine ih _ _ _ (by simp) (by simpa using hmx) ?_ pk hpk
      intro pk2 hpk2
      rcases List.mem_append.mp hpk2 with h | h
      · exact hflushed pk2 h
      · obtain ⟨g, hgmem, hgeq⟩ := List.mem_map.mp h
        have hgood := packSentencesAux_good mx (splitSents p) (splitSents p) [] [] 0
          (fun x hx => hx) rfl (Or.inl rfl) (by intro g2 hg2; simp at hg2) g hgmem
        subst hgeq
        rcases hgood with h2 | ⟨u, hgu, hub, humem⟩
        · exact Or.inl (by simpa [packedUnits] using h2)
        · subst hgu
          exact Or.inr ⟨u, rfl, hub, splitSents_pieces p u humem⟩
    · by_cases hover : mx < (curTok : Int) + estimateTokens p
      · rw [show packParasAux mx done cur curTok (p :: ps) =
            packParasAux mx (if cur.isEmpty then done else done ++ [.paras cur]) [p]
              (estimateTokens p) ps from by simp [packParasAux, hbig, hover]] at hpk
        refine ih _ _ _ (by simp) ?_ hflushed pk hpk
        simp only [List.map_cons, List.map_nil, List.sum_cons, List.sum_nil]
        push_cast
        omega
      · rw [show packParasAux mx done cur curTok (p :: ps) =
            packParasAux mx done (cur ++ [p]) (curTok + estimateTokens p) ps from by
          simp [packParasAux, hbig, hover]] at hpk
        refine ih _ _ _ (by simp [htok]) ?_ hdone pk hpk
        have heq : ((cur ++ [p]).map estimateTokens).sum = curTok + estimateTokens p := by
          simp [htok]
        rw [heq]
        push_cast
        omega

theorem packParas_good (mx : Int) (hmx : (0 : Int) ≤ mx) (ps : List Str) :
    ∀ pk ∈ packParas mx ps,
      (((packedUnits pk).map estimateTokens).sum : Int) ≤ mx ∨
        (∃ u, pk = .sents [u] ∧ mx < (estimateTokens u : Int) ∧ noSentBreak u = true) := by
  intro pk hpk
  exact packParasAux_good mx hmx ps [] [] 0 rfl (by simpa using hmx)
    (by intro pk2 h; simp at h) pk hpk

theorem wc_renderPacked (pk : Packed) :
    (words (renderPacked pk)).length =
      ((packedUnits pk).map (fun u => (words u).length)).sum := by
  cases pk with
  | paras us =>
    exact wc_intercalate ('\n' :: '\n' :: []) (by simp)
      (by intro d hd; simp at hd; subst hd; rfl) us
  | sents us =>
    exact wc_intercalate [' '] (by simp) (by intro d hd; simp at hd; subst hd; rfl) us

theorem renderPacked_sents_single (u : Str) : renderPacked (.sents [u]) = u := by
  simp [renderPacked, intercalate_single]

theorem addOverlapsAux_mem (ovl : Int) : ∀ (xs : List (Str × Metadata)) (pv : Str)
    (x : Str × Metadata), x ∈ addOverlapsAux ovl pv xs →
    ∃ (prevS : Str) (q : Str × Metadata), q ∈ xs ∧
      x = (getOverlapText prevS ovl ++ '\n' :: '\n' :: q.1, q.2) := by
  intro xs
  induction xs with
  | nil => intro pv x hx; simp [addOverlapsAux] at hx
  | cons q qs ih =>
    intro pv x hx
    rw [show addOverlapsAux ovl pv (q :: qs) =
        (getOverlapText pv ovl ++ '\n' :: '\n' :: q.1, q.2) :: addOverlapsAux ovl q.1 qs
      from rfl] at hx
    rcases List.mem_cons.mp hx with h | h
    · exact ⟨pv, q, by simp, h⟩
    · obtain ⟨prevS, q2, hq2, hx2⟩ := ih q.1 x h
      exact ⟨prevS, q2, List.mem_cons_of_mem q hq2, hx2⟩

theorem addOverlaps_mem (ovl : Int) (L : List (Str × Metadata)) (x : Str × Metadata)
    (hx : x ∈ addOverlaps ovl L) :
    x ∈ L ∨ ∃ (prevS : Str) (q : Str × Metadata), q ∈ L ∧
      x = (getOverlapText prevS ovl ++ '\n' :: '\n' :: q.1, q.2) := by
  match L with
  | [] => simp [addOverlaps] at hx
  | q :: qs =>
    rw [show addOverlaps ovl (q :: qs) = q :: addOverlapsAux ovl q.1 qs from rfl] at hx
    rcases List.mem_cons.mp hx with h | h
    · exact Or.inl (by simp [h])
    · obtain ⟨prevS, q2, hq2, hx2⟩ := addOverlapsAux_mem ovl qs q.1 x h
      exact Or.inr ⟨prevS, q2, List.mem_cons_of_mem q hq2, hx2⟩

theorem base_chunk_bound (mx ovl : Int) (hmx : 0 < mx) (t : Str) (m : Metadata) :
    ∀ q ∈ (packParas mx (splitDoubleNl t)).map (fun p => (renderPacked p, m)),
      (∃ u : Str, u <:+ q.1 ∧ noSentBreak u = true ∧ mx < (estimateTokens u : Int)) ∨
      (((words q.1).length : Int) ≤ mx) := by
  intro q hq
  obtain ⟨pk, hpk, hqeq⟩ := List.mem_map.mp hq
  subst hqeq
  rcases packParas_good mx (by omega) (splitDoubleNl t) pk hpk with h | ⟨u, hpku, hub, hnb⟩
  · refine Or.inr ?_
    rw [wc_renderPacked pk]
    calc (((((packedUnits pk).map (fun u => (words u).length)).sum : Nat)) : Int)
        ≤ (((packedUnits pk).map estimateTokens).sum : Int) := by
          exact_mod_cast wc_sum_le_est_sum (packedUnits pk)
      _ ≤ mx := h
  · subst hpku
    refine Or.inl ⟨u, ?_, hnb, hub⟩
    rw [renderPacked_sents_single]

theorem splitByParagraphs_member_bound (mx ovl : Int) (hmx : 0 < mx) (hovl : 0 ≤ ovl)
    (t : Str) (m : Metadata) (inc : Bool) :
    ∀ q ∈ splitByParagraphs (mkChunker mx ovl) t m inc,
      (∃ u : Str, u <:+ q.1 ∧ noSentBreak u = true ∧ mx < (estimateTokens u : Int)) ∨
      (((words q.1).length : Int) ≤ mx + 2 * ovl) := by
  intro q hq
  have hbase : ∀ q2 ∈ (packParas mx (splitDoubleNl t)).map (fun p => (renderPacked p, m)),
      (∃ u : Str, u <:+ q2.1 ∧ noSentBreak u = true ∧ mx < (estimateTokens u : Int)) ∨
      (((words q2.1).length : Int) ≤ mx) := base_chunk_bound mx ovl hmx t m
  unfold splitByParagraphs at hq
  by_cases hcond : (inc && decide (1 < ((packParas (mkChunker mx ovl).maxTokens
      (splitDoubleNl t)).map (fun p => (renderPacked p, m))).length)) = true
  · rw [if_pos hcond] at hq
    set ov : Int := if inc = true then (mkChunker mx ovl).increasedOverlap
      else (mkChunker mx ovl).overlapTokens with hovdef
    have hovle : ov ≤ 2 * ovl ∧ 0 ≤ ov := by
      rw [hovdef]
      by_cases hi : inc = true
      · simp only [hi, if_true]
        constructor
        · simp [mkChunker]
          omega
        · simp [mkChunker]
          omega
      · simp only [hi, Bool.false_eq_true, if_false]
        constructor
        · simp [mkChunker]
          omega
        · simp [mkChunker]
          omega
    rcases addOverlaps_mem ov _ q hq with h | ⟨prevS, q2, hq2, hqeq⟩
    · rcases hbase q h with h2 | h2
      · exact Or.inl h2
      · refine Or.inr ?_
        calc ((words q.1).length : Int) ≤ mx := h2
          _ ≤ mx + 2 * ovl := by omega
    · subst hqeq
      have hwords : (words (getOverlapText prevS ov ++ '\n' :: '\n' :: q2.1)).length =
          (words (getOverlapText prevS ov)).length + (words q2.1).length := by
        have h5 := words_append_sep (getOverlapText prevS ov) ('\n' :: '\n' :: []) q2.1
          (by simp) (by intro d hd; simp at hd; subst hd; rfl)
        rw [show getOverlapText prevS ov ++ ('\n' :: '\n' :: []) ++ q2.1 =
            getOverlapText prevS ov ++ '\n' :: '\n' :: q2.1 from by simp] at h5
        rw [h5, List.length_append]
      rcases hbase q2 hq2 with h2 | h2
      · obtain ⟨u, hsuf, hnb, hub⟩ := h2
        refine Or.inl ⟨u, ?_, hnb, hub⟩
        show u <:+ getOverlapText prevS ov ++ '\n' :: '\n' :: q2.1
        have h3 : q2.1 <:+ getOverlapText prevS ov ++ '\n' :: '\n' :: q2.1 := by
          rw [show getOverlapText prevS ov ++ '\n' :: '\n' :: q2.1 =
              (getOverlapText prevS ov ++ ['\n', '\n']) ++ q2.1 from by simp]
          exact List.suffix_append _ _
        exact hsuf.trans h3
      · refine Or.inr ?_
        show ((words (getOverlapText prevS ov ++ '\n' :: '\n' :: q2.1)).length : Int) ≤ _
        rw [hwords]
        have hov2 : ((words (getOverlapText prevS ov)).length : Int) ≤ 2 * ovl :=
          le_trans (getOverlapText_wc_le prevS ov hovle.2) hovle.1
        push_cast
        push_cast at hov2 h2
        omega
  · rw [if_neg (by simpa using hcond)] at hq
    rcases hbase q hq with h | h
    · exact Or.inl h
    · refine Or.inr ?_
      calc ((words q.1).length : Int) ≤ mx := h
        _ ≤ mx + 2 * ovl := by omega

theorem finalizeSections_member_bound (mx ovl : Int) (hmx : 0 < mx) (hovl : 0 ≤ ovl)
    (secs : List (Str × Metadata)) :
    ∀ q ∈ finalizeSections (mkChunker mx ovl) secs,
      (∃ u : Str, u <:+ q.1 ∧ noSentBreak u = true ∧ mx < (estimateTokens u : Int)) ∨
      (((words q.1).length : Int) ≤ mx + 2 * ovl) := by
  intro q hq
  unfold finalizeSections at hq
  obtain ⟨sec, _, hqin⟩ := List.mem_flatMap.mp hq
  by_cases h1 : (stripWS sec.1).isEmpty
  · rw [if_pos h1] at hqin
    simp at hqin
  · rw [if_neg h1] at hqin
    by_cases h2 : decide ((estimateTokens sec.1 : Int) ≤ (mkChunker mx ovl).maxTokens) = true
    · rw [if_pos h2] at hqin
      have hqe : q = sec := by simpa using hqin
      subst hqe
      refine Or.inr ?_
      have hle : (estimateTokens q.1 : Int) ≤ mx := by simpa [mkChunker] using h2
      calc ((words q.1).length : Int) ≤ (estimateTokens q.1 : Int) := by
            exact_mod_cast wc_le_est q.1
        _ ≤ mx := hle
        _ ≤ mx + 2 * ovl := by omega
    · rw [if_neg h2] at hqin
      exact splitByParagraphs_member_bound mx ovl hmx hovl sec.1 sec.2 false q hqin

theorem adaptive_member_bound (mx ovl : Int) (hmx : 0 < mx) (hovl : 0 ≤ ovl)
    (t : Str) (m : Metadata) :
    ∀ q ∈ splitLargeSectionAdaptive (mkChunker mx ovl) t m,
      (∃ u : Str, u <:+ q.1 ∧ noSentBreak u = true ∧ mx < (estimateTokens u : Int)) ∨
      (((words q.1).length : Int) ≤ mx + 2 * ovl) := by
  intro q hq
  have hpass3 : ∀ md : Metadata, q ∈ adaptivePass3 (mkChunker mx ovl) t md →
      (∃ u : Str, u <:+ q.1 ∧ noSentBreak u = true ∧ mx < (estimateTokens u : Int)) ∨
      (((words q.1).length : Int) ≤ mx + 2 * ovl) := by
    intro md hq3
    unfold adaptivePass3 at hq3
    by_cases h4 : decide (2 ≤ (splitByStructuralMarkers t).length) = true
    · rw [if_pos h4] at hq3
      exact finalizeSections_member_bound mx ovl hmx hovl _ q hq3
    · rw [if_neg h4] at hq3
      exact splitByParagraphs_member_bound mx ovl hmx hovl t _ true q hq3
  unfold splitLargeSectionAdaptive at hq
  by_cases h1 : hasMarkdownSubheaders t = true
  · rw [if_pos h1] at hq
    exact finalizeSections_member_bound mx ovl hmx hovl _ q hq
  · rw [if_neg h1] at hq
    by_cases h2 : hasBoldHeadings t 2 = true
    · rw [if_pos h2] at hq
      by_cases h3 : decide (2 ≤ (splitByBoldHeadings t).length) = true
      · rw [if_pos h3] at hq
        exact finalizeSections_member_bound mx ovl hmx hovl _ q hq
      · rw [if_neg h3] at hq
        exact hpass3 m hq
    · rw [if_neg h2] at hq
      exact hpass3 m hq

/-- Claim C1, amended: for every chunk returned by `chunk(text)` (with
positive `max_tokens` and non-negative `overlap_tokens`), either the
chunk contains atomic oversized material — a suffix of its content that
is a single sentence (no sentence boundary of the packer's splitter
inside it) whose own estimate already exceeds `max_tokens`; such a unit
is kept whole, never truncated or dropped, though the fallback pass may
still prepend an overlap window to it — or the chunk's word count is at
most `max_tokens + 2 * overlap_tokens` and hence its token estimate
satisfies `10 * estimate ≤ 13 * (max_tokens + 2 * overlap_tokens)`.
The claim's strict per-chunk bound `estimate ≤ max_tokens` does not
hold: the packer bounds the SUM of the floored per-unit estimates by the
budget, so the joined content's estimate can round up past `max_tokens`,
and the fallback pass prepends up to `increased_overlap` more tokens of
overlap after packing. -/
theorem claimC1_amended (mx ovl : Int) (hmx : 0 < mx) (hovl : 0 ≤ ovl) (t : Str) :
    ∀ ch ∈ chunkFn (mkChunker mx ovl) t,
      (∃ u : Str, u <:+ ch.content ∧ noSentBreak u = true ∧ mx < (estimateTokens u : Int)) ∨
      (((words ch.content).length : Int) ≤ mx + 2 * ovl ∧
        10 * (estimateTokens ch.content : Int) ≤ 13 * (mx + 2 * ovl)) := by
  intro ch hch
  have hconv : ∀ s : Str, ((words s).length : Int) ≤ mx + 2 * ovl →
      10 * (estimateTokens s : Int) ≤ 13 * (mx + 2 * ovl) := by
    intro s hwc
    have h1 : estimateTokens s * 10 ≤ (words s).length * 13 := by
      unfold estimateTokens
      exact Nat.div_mul_le_self _ 10
    have h2 : ((words s).length : Int) * 13 ≤ (mx + 2 * ovl) * 13 := by
      exact mul_le_mul_of_nonneg_right hwc (by omega)
    calc 10 * (estimateTokens s : Int) = (estimateTokens s * 10 : Nat) := by push_cast; ring
      _ ≤ ((words s).length * 13 : Nat) := by exact_mod_cast h1
      _ = ((words s).length : Int) * 13 := by push_cast; ring
      _ ≤ (mx + 2 * ovl) * 13 := h2
      _ = 13 * (mx + 2 * ovl) := by ring
  unfold chunkFn at hch
  obtain ⟨p, hp, hchin⟩ := List.mem_flatMap.mp hch
  by_cases hneeds : needsAdaptiveSplitting (mkChunker mx ovl) p.1 = true
  · rw [if_pos hneeds] at hchin
    obtain ⟨q, hq, hcheq⟩ := List.mem_map.mp hchin
    rcases adaptive_member_bound mx ovl hmx hovl p.1 p.2 q hq with h | h
    · refine Or.inl ?_
      rw [← hcheq]
      exact h
    · refine Or.inr ?_
      rw [← hcheq]
      exact ⟨h, hconv q.1 h⟩
  · rw [if_neg hneeds] at hchin
    have hche : ch = ⟨p.1, p.2⟩ := by simpa using hchin
    subst hche
    have hest : (estimateTokens p.1 : Int) ≤ mx := by
      unfold needsAdaptiveSplitting mkChunker at hneeds
      simp only [Bool.or_eq_true, Bool.and_eq_true, decide_eq_true_eq, not_or] at hneeds
      have := hneeds
      omega
    refine Or.inr ?_
    have hwc : ((words p.1).length : Int) ≤ mx + 2 * ovl := by
      calc ((words p.1).length : Int) ≤ (estimateTokens p.1 : Int) := by
            exact_mod_cast wc_le_est p.1
        _ ≤ mx := hest
        _ ≤ mx + 2 * ovl := by omega
    exact ⟨hwc, hconv p.1 hwc⟩

/-- Claim C1, counterexample: with `max_tokens = 5`, `overlap_tokens = 0`,
the input of five one-word paragraphs (each a full sentence of estimate
1) is packed into a single chunk whose estimate is 6 > 5, although the
chunk is not a single atomic unit under any reading: it consists of five
paragraphs and five sentences, every one of which is far below the
budget. -/
theorem claimC1_counterexample :
    chunkFn (mkChunker 5 0) (str "A.\n\nB.\n\nC.\n\nD.\n\nE.") =
      [⟨str "A.\n\nB.\n\nC.\n\nD.\n\nE.", ⟨none, none, some (str "paragraph_split")⟩⟩] ∧
    5 < (estimateTokens (str "A.\n\nB.\n\nC.\n\nD.\n\nE.") : Int) ∧
    (splitDoubleNl (str "A.\n\nB.\n\nC.\n\nD.\n\nE.")).length = 5 ∧
    (∀ p ∈ splitDoubleNl (str "A.\n\nB.\n\nC.\n\nD.\n\nE."), (estimateTokens p : Int) ≤ 5) ∧
    (splitSents (str "A.\n\nB.\n\nC.\n\nD.\n\nE.")).length = 5 ∧
    (∀ s ∈ splitSents (str "A.\n\nB.\n\nC.\n\nD.\n\nE."), (estimateTokens s : Int) ≤ 5) := by
  refine ⟨by decide, by decide, by decide, by decide, by decide, by decide⟩

/-- Witness for the amended claim C1 at a concrete configuration, chunk
and input. -/
theorem claimC1_amended_witness :
    (∃ u : Str, u <:+ (str "hello") ∧ noSentBreak u = true ∧ 5 < (estimateTokens u : Int)) ∨
    (((words (str "hello")).length : Int) ≤ 5 + 2 * 0 ∧
      10 * (estimateTokens (str "hello") : Int) ≤ 13 * (5 + 2 * 0)) :=
  claimC1_amended 5 0 (by decide) (by decide) (str "hello") ⟨str "hello", emptyMeta⟩ (by decide)
